import Mathlib

/-!
Shallow embedding of the SSE (Server-Sent Events) manager from
`src/lib/sse/manager.ts`, together with proofs of the specification's
claims about it.

JavaScript values that matter to the claims are modelled as follows:
* JSON-serializable `data` payloads are a `Json` inductive; `JSON.stringify`
  on such values is `Json.stringify` (numbers restricted to integers, which
  covers every payload the manager itself builds).
* JS strings are Lean `String`s; `string.split("\n")` is `jsSplitNl`,
  splitting on the newline character.
* `Date.now()` timestamps are `Nat` milliseconds, passed to each operation
  as an explicit `now` parameter (the two `Date.now()` calls inside
  `addClient` are modelled as the same instant).
* A `ReadableStreamDefaultController` is a `Sink`: an external object whose
  `enqueue` either accepts or throws (decided by `writeOk` applied to how many
  writes this sink has seen) and whose `close` either succeeds or throws
  (`closeOk`).  The manager never inspects these outcomes beyond
  try/catch, so this interface is the whole of what the code can observe.
-/

namespace SSE

/-! ### JSON values and `JSON.stringify` -/

inductive Json where
  | null : Json
  | bool (b : Bool) : Json
  | num (n : Int) : Json
  | str (s : String) : Json
  | arr (elems : List Json) : Json
  | obj (fields : List (String × Json)) : Json

/-- One character of a JSON string literal, escaped as `JSON.stringify` does. -/
def escapeJsonChar (c : Char) : String :=
  if c = '"' then "\\\""
  else if c = '\\' then "\\\\"
  else if c = '\n' then "\\n"
  else if c = '\r' then "\\r"
  else if c = '\t' then "\\t"
  else if c.toNat = 8 then "\\b"
  else if c.toNat = 12 then "\\f"
  else if c.toNat < 32 then
    let hexDigit : Nat → Char := fun n =>
      if n < 10 then Char.ofNat (48 + n) else Char.ofNat (87 + n)
    "\\u00" ++ String.mk [hexDigit (c.toNat / 16), hexDigit (c.toNat % 16)]
  else String.singleton c

/-- A JSON string literal: quotes around the escaped characters. -/
def quoteJsonString (s : String) : String :=
  "\"" ++ String.join (s.data.map escapeJsonChar) ++ "\""

mutual

/-- `JSON.stringify` restricted to the modelled value space. -/
def Json.stringify : Json → String
  | .null => "null"
  | .bool b => if b then "true" else "false"
  | .num n => toString n
  | .str s => quoteJsonString s
  | .arr elems => "[" ++ stringifyElems elems ++ "]"
  | .obj fields => "\x7b" ++ stringifyFields fields ++ "\x7d"

/-- Comma-separated serialization of the elements of a JSON array. -/
def stringifyElems : List Json → String
  | [] => ""
  | [e] => Json.stringify e
  | e :: rest => Json.stringify e ++ "," ++ stringifyElems rest

/-- Comma-separated serialization of the key/value pairs of a JSON object. -/
def stringifyFields : List (String × Json) → String
  | [] => ""
  | [(k, v)] => quoteJsonString k ++ ":" ++ Json.stringify v
  | (k, v) :: rest =>
      quoteJsonString k ++ ":" ++ Json.stringify v ++ "," ++ stringifyFields rest

end

/-! ### Newline splitting, the model of JS `string.split("\n")` -/

/-- Split a character list at every newline; always returns at least one
segment, exactly like `"".split("\n") == [""]` in JS. -/
def splitNl : List Char → List (List Char)
  | [] => [[]]
  | c :: cs =>
    match splitNl cs with
    | [] => [[c]]
    | l :: ls => if c = '\n' then [] :: l :: ls else (c :: l) :: ls

/-- JS `s.split("\n")`. -/
def jsSplitNl (s : String) : List String :=
  (splitNl s.data).map String.mk

theorem splitNl_ne_nil (cs : List Char) : splitNl cs ≠ [] := by
  cases cs with
  | nil => simp [splitNl]
  | cons c cs =>
    simp only [splitNl]
    cases splitNl cs with
    | nil => simp
    | cons l ls =>
      by_cases h : c = '\n' <;> simp [h]

/-- Rejoin newline-separated segments (the inverse direction of `splitNl`). -/
def joinNl : List (List Char) → List Char
  | [] => []
  | [l] => l
  | l :: ls => l ++ '\n' :: joinNl ls

/-- Joining the segments back with newlines recovers the original list:
the split loses no information. -/
theorem joinNl_splitNl (cs : List Char) : joinNl (splitNl cs) = cs := by
  induction cs with
  | nil => simp [splitNl, joinNl]
  | cons c cs ih =>
    simp only [splitNl]
    rcases h : splitNl cs with _ | ⟨l, ls⟩
    · exact absurd h (splitNl_ne_nil cs)
    · rw [h] at ih
      by_cases hc : c = '\n'
      · subst hc
        cases ls <;> simp_all [joinNl]
      · cases ls <;> simp_all [joinNl, if_neg hc]

/-- No segment produced by the split contains a newline. -/
theorem not_nl_mem_splitNl (cs : List Char) :
    ∀ l ∈ splitNl cs, '\n' ∉ l := by
  induction cs with
  | nil => intro l hl; simp [splitNl] at hl; simp [hl]
  | cons c cs ih =>
    rcases h : splitNl cs with _ | ⟨l, ls⟩
    · exact absurd h (splitNl_ne_nil cs)
    rw [h] at ih
    intro l' hl'
    simp only [splitNl, h] at hl'
    by_cases hc : c = '\n'
    · subst hc
      rw [if_pos rfl] at hl'
      rcases List.mem_cons.mp hl' with rfl | hl2
      · simp
      · exact ih l' hl2
    · rw [if_neg hc] at hl'
      rcases List.mem_cons.mp hl' with rfl | hl2
      · intro hmem
        rcases List.mem_cons.mp hmem with h1 | h1
        · exact hc h1.symm
        · exact ih l (List.mem_cons_self l ls) h1
      · exact ih l' (List.mem_cons_of_mem l hl2)

/-- There is one segment per newline, plus one. -/
theorem length_splitNl (cs : List Char) :
    (splitNl cs).length = cs.count '\n' + 1 := by
  induction cs with
  | nil => simp [splitNl]
  | cons c cs ih =>
    rcases h : splitNl cs with _ | ⟨l, ls⟩
    · exact absurd h (splitNl_ne_nil cs)
    rw [h] at ih
    simp only [splitNl, h]
    by_cases hc : c = '\n'
    · subst hc
      rw [if_pos rfl]
      simp only [List.length_cons] at ih ⊢
      have : List.count '\n' ('\n' :: cs) = List.count '\n' cs + 1 := by
        simp [List.count_cons]
      omega
    · rw [if_neg hc]
      simp only [List.length_cons] at ih ⊢
      have : List.count '\n' (c :: cs) = List.count '\n' cs := by
        simp [List.count_cons]
        intro hh
        exact absurd hh hc
      omega

/-! ### Events and the wire codec (`formatSSEMessage`) -/

structure SSEEvent where
  type : String
  data : Json
  id : Option String := none
  retry : Option Int := none

/-- `typeof event.data === "string" ? event.data : JSON.stringify(event.data)`. -/
def eventDataString (d : Json) : String :=
  match d with
  | .str s => s
  | d => d.stringify

/-- The `id:` header: emitted when `event.id` is truthy (present and nonempty). -/
def idHeader (i : Option String) : String :=
  match i with
  | some s => if s = "" then "" else "id: " ++ s ++ "\n"
  | none => ""

/-- The `event:` header: emitted when `event.type` is truthy (nonempty). -/
def typeHeader (t : String) : String :=
  if t = "" then "" else "event: " ++ t ++ "\n"

/-- The `retry:` header: emitted when `event.retry` is truthy (present and
nonzero, since `0` is falsy in JS). -/
def retryHeader (r : Option Int) : String :=
  match r with
  | some n => if n = 0 then "" else "retry: " ++ toString n ++ "\n"
  | none => ""

/-- Concatenation of a list of strings (the `message +=` loop). -/
def strJoin : List String → String
  | [] => ""
  | s :: ss => s ++ strJoin ss

/-- The `data:` block: one `data:` line per newline-separated line of the
serialized payload. -/
def dataBlock (d : Json) : String :=
  strJoin ((jsSplitNl (eventDataString d)).map (fun l => "data: " ++ l ++ "\n"))

/-- `SSEManager.formatSSEMessage`: headers, data lines, blank-line terminator. -/
def formatSSEMessage (e : SSEEvent) : String :=
  idHeader e.id ++ typeHeader e.type ++ retryHeader e.retry ++ dataBlock e.data ++ "\n"

/-! ### The connection registry (`SSEManager`)

`Map` and `Set` are modelled as insertion-ordered association lists /
lists, mirroring the iteration-order guarantees of the JS collections.
`sendToClient` appends every frame that the sink accepted to a delivery log
`sent`; `removeClient` records each `controller.close()` attempt in
`closedLog` (the attempt is made whether or not the close throws, and its
outcome is swallowed, exactly as in the source's try/catch). -/

/-- The externally supplied stream controller: its `enqueue` accepts or
throws according to `writeOk` (a function of how many writes this sink has
already received), and its `close` succeeds or throws according to
`closeOk`. -/
structure Sink where
  writeOk : Nat → Bool
  closeOk : Bool

structure SSEClient where
  id : String
  userId : Option String
  sessionId : Option String
  controller : Sink
  lastPing : Nat
  /-- how many `enqueue` calls this client's controller has received
  (bookkeeping for `Sink.writeOk`, not a field of the source record) -/
  writeCount : Nat

structure SSEManagerConfig where
  heartbeatInterval : Nat
  connectionTimeout : Nat
  maxConnections : Nat

/-- The constructor's defaults: 30s heartbeat, 60s timeout, 1000 connections. -/
def defaultConfig : SSEManagerConfig :=
  { heartbeatInterval := 30000, connectionTimeout := 60000, maxConnections := 1000 }

structure ManagerState where
  /-- `this.clients`, an insertion-ordered map keyed by `SSEClient.id`. -/
  clients : List SSEClient
  /-- `this.userConnections`: userId -> insertion-ordered set of client ids. -/
  userConnections : List (String × List String)
  /-- observation log: every event a sink accepted, oldest first; the bytes
  put on the wire for an entry `(cid, e)` are `formatSSEMessage e`. -/
  sent : List (String × SSEEvent)
  /-- observation log: every `controller.close()` attempt, oldest first. -/
  closedLog : List String

def initialState : ManagerState :=
  { clients := [], userConnections := [], sent := [], closedLog := [] }

/-- `this.clients.get cid`. -/
def lookupClient : List SSEClient → String → Option SSEClient
  | [], _ => none
  | c :: cs, cid => if c.id = cid then some c else lookupClient cs cid

/-- `this.clients.set cid c`: overwrite in place, or append when absent. -/
def setClient : List SSEClient → String → SSEClient → List SSEClient
  | [], _, c => [c]
  | x :: xs, cid, c => if x.id = cid then c :: xs else x :: setClient xs cid c

/-- `this.clients.delete cid`. -/
def deleteClient : List SSEClient → String → List SSEClient
  | [], _ => []
  | x :: xs, cid => if x.id = cid then xs else x :: deleteClient xs cid

/-- `this.userConnections.get uid`. -/
def lookupIndex : List (String × List String) → String → Option (List String)
  | [], _ => none
  | p :: ps, uid => if p.1 = uid then some p.2 else lookupIndex ps uid

/-- `Set.add`: a no-op when already present, else append. -/
def addId (ids : List String) (cid : String) : List String :=
  if cid ∈ ids then ids else ids ++ [cid]

/-- `Set.delete`. -/
def removeId : List String → String → List String
  | [], _ => []
  | x :: xs, cid => if x = cid then xs else x :: removeId xs cid

/-- The user-index update of `addClient`: create the set if needed, then add. -/
def indexAdd : List (String × List String) → String → String → List (String × List String)
  | [], uid, cid => [(uid, [cid])]
  | p :: ps, uid, cid =>
    if p.1 = uid then (p.1, addId p.2 cid) :: ps else p :: indexAdd ps uid cid

/-- The user-index update of `removeClient`: drop the id from the user's set
and delete the entry when the set becomes empty. -/
def indexRemove : List (String × List String) → String → String → List (String × List String)
  | [], _, _ => []
  | p :: ps, uid, cid =>
    if p.1 = uid then
      let ids := removeId p.2 cid
      if ids.isEmpty then ps else (p.1, ids) :: ps
    else p :: indexRemove ps uid cid

/-- `SSEManager.removeClient`: no-op for an unknown id; otherwise unindex,
attempt to close the sink (outcome swallowed), delete the record. -/
def removeClient (s : ManagerState) (clientId : String) : ManagerState :=
  match lookupClient s.clients clientId with
  | none => s
  | some client =>
    let uc := match client.userId with
      | some uid => indexRemove s.userConnections uid clientId
      | none => s.userConnections
    { s with
      userConnections := uc,
      clients := deleteClient s.clients clientId,
      closedLog := s.closedLog ++ [clientId] }

/-- `SSEManager.sendToClient`: false for an unknown id; on an accepted write
the frame is logged; a throwing sink causes eviction via `removeClient`. -/
def sendToClient (s : ManagerState) (clientId : String) (event : SSEEvent) :
    Bool × ManagerState :=
  match lookupClient s.clients clientId with
  | none => (false, s)
  | some client =>
    if client.controller.writeOk client.writeCount then
      (true,
        { s with
          clients := setClient s.clients clientId { client with writeCount := client.writeCount + 1 },
          sent := s.sent ++ [(clientId, event)] })
    else
      (false, removeClient s clientId)

/-- The `connection` confirmation event sent by `addClient`. -/
def connectionEvent (clientId : String) (now : Nat) : SSEEvent :=
  { type := "connection",
    data := Json.obj
      [("status", Json.str "connected"),
       ("clientId", Json.str clientId),
       ("timestamp", Json.num (Int.ofNat now))],
    id := none, retry := none }

/-- `SSEManager.addClient`: throws when the cap is reached (before touching
any state); otherwise registers, indexes under `userId` when present, and
sends the initial `connection` event. -/
def addClient (cfg : SSEManagerConfig) (s : ManagerState) (clientId : String)
    (controller : Sink) (userId sessionId : Option String) (now : Nat) :
    Except String ManagerState :=
  if cfg.maxConnections ≤ s.clients.length then
    Except.error "Maximum connections reached"
  else
    let client : SSEClient :=
      { id := clientId, userId := userId, sessionId := sessionId,
        controller := controller, lastPing := now, writeCount := 0 }
    let s1 := { s with clients := setClient s.clients clientId client }
    let s2 := match userId with
      | some uid => { s1 with userConnections := indexAdd s1.userConnections uid clientId }
      | none => s1
    Except.ok (sendToClient s2 clientId (connectionEvent clientId now)).2

/-- One `for (const clientId of ids) if (sendToClient ...) successCount++`
round; `sendToClient` only ever deletes the id currently being visited, so
iterating a snapshot list coincides with JS iteration of the live set. -/
def sendRound (s : ManagerState) (ids : List String) (event : SSEEvent) :
    Nat × ManagerState :=
  ids.foldl
    (fun acc cid =>
      let r := sendToClient acc.2 cid event
      (if r.1 then acc.1 + 1 else acc.1, r.2))
    (0, s)

/-- `SSEManager.sendToUser`. -/
def sendToUser (s : ManagerState) (userId : String) (event : SSEEvent) :
    Nat × ManagerState :=
  match lookupIndex s.userConnections userId with
  | none => (0, s)
  | some ids => if ids.isEmpty then (0, s) else sendRound s ids event

/-- `SSEManager.broadcast`. -/
def broadcast (s : ManagerState) (event : SSEEvent) : Nat × ManagerState :=
  sendRound s (s.clients.map (·.id)) event

def getStats (s : ManagerState) : Nat × Nat × List (String × Nat) :=
  (s.clients.length, s.userConnections.length,
    s.userConnections.map (fun p => (p.1, p.2.length)))

/-- The heartbeat-sending phase of a tick: a successful send refreshes the
client's `lastPing` to the tick time. -/
def heartbeatLoop (s : ManagerState) (ids : List String) (event : SSEEvent)
    (now : Nat) : ManagerState :=
  ids.foldl
    (fun st cid =>
      let r := sendToClient st cid event
      if r.1 then
        match lookupClient r.2.clients cid with
        | some c => { r.2 with clients := setClient r.2.clients cid { c with lastPing := now } }
        | none => r.2
      else r.2)
    s

/-- The heartbeat event of a tick at time `now`. -/
def heartbeatEvent (now : Nat) : SSEEvent :=
  { type := "heartbeat", data := Json.obj [("timestamp", Json.num (Int.ofNat now))],
    id := none, retry := none }

/-- One tick of the timer installed by `SSEManager.startHeartbeat`: collect
the stale connections, remove them, then ping the survivors. -/
def heartbeatTick (cfg : SSEManagerConfig) (s : ManagerState) (now : Nat) :
    ManagerState :=
  let deadClients :=
    (s.clients.filter (fun c => decide (cfg.connectionTimeout < now - c.lastPing))).map (·.id)
  let s1 := deadClients.foldl removeClient s
  heartbeatLoop s1 (s1.clients.map (·.id)) (heartbeatEvent now) now

/-- `SSEManager.destroy` (the state part: the timer itself is not state). -/
def destroy (s : ManagerState) : ManagerState :=
  (s.clients.map (·.id)).foldl removeClient s

/-! ### Operation sequences and the registry invariant -/

inductive Op where
  | add (clientId : String) (controller : Sink) (userId sessionId : Option String) (now : Nat)
  | remove (clientId : String)
  | sendClient (clientId : String) (event : SSEEvent)
  | sendUser (userId : String) (event : SSEEvent)
  | bcast (event : SSEEvent)
  | tick (now : Nat)
  | shutdown

/-- Apply one public operation; a thrown `CapacityExceeded` from `addClient`
leaves the registry untouched. -/
def applyOp (cfg : SSEManagerConfig) (s : ManagerState) : Op → ManagerState
  | .add cid ctrl uid sid now =>
    match addClient cfg s cid ctrl uid sid now with
    | .ok s' => s'
    | .error _ => s
  | .remove cid => removeClient s cid
  | .sendClient cid e => (sendToClient s cid e).2
  | .sendUser uid e => (sendToUser s uid e).2
  | .bcast e => (broadcast s e).2
  | .tick now => heartbeatTick cfg s now
  | .shutdown => destroy s

def applyOps (cfg : SSEManagerConfig) (s : ManagerState) (ops : List Op) : ManagerState :=
  ops.foldl (applyOp cfg) s

def hasClient (s : ManagerState) (cid : String) : Bool :=
  (lookupClient s.clients cid).isSome

/-- The side condition of claim C1: `add` is only issued for ids that are
not currently registered. -/
def opFresh (s : ManagerState) : Op → Prop
  | .add cid _ _ _ _ => hasClient s cid = false
  | _ => True

/-- An operation sequence each of whose `add`s satisfies `opFresh` at the
state where it executes. -/
def FreshSeq (cfg : SSEManagerConfig) : ManagerState → List Op → Prop
  | _, [] => True
  | s, op :: rest => opFresh s op ∧ FreshSeq cfg (applyOp cfg s op) rest

def clientIds (s : ManagerState) : List String := s.clients.map (·.id)

/-- The invariant of §3 of the spec, at the level of the two structures:
no user entry has an empty set; every indexed connection id belongs to a
registered connection whose `userId` is that user (so an id is never in the
wrong user's set, and never dangles); and every registered connection with
a `userId` is indexed under it.  Together the last two say: `cid` is in
`userIndex[u]` iff the connection map holds `cid` with `userId = u`. -/
def InvLists (cs : List SSEClient) (uc : List (String × List String)) : Prop :=
  (∀ p ∈ uc, p.2 ≠ []) ∧
  (∀ p ∈ uc, ∀ cid ∈ p.2, ∃ c ∈ cs, c.id = cid ∧ c.userId = some p.1) ∧
  (∀ c ∈ cs, ∀ uid ∈ c.userId.toList, ∃ p ∈ uc, p.1 = uid ∧ c.id ∈ p.2)

/-- The data-model invariant of §3, stated on a registry state. -/
def RegistryInvariant (s : ManagerState) : Prop :=
  InvLists s.clients s.userConnections

/-- Well-formedness: the registry invariant together with the structural
facts that `clients` and `userConnections` are maps (no duplicate keys) and
each user entry is a set (no duplicate ids). -/
def WFlists (cs : List SSEClient) (uc : List (String × List String)) : Prop :=
  (cs.map (·.id)).Nodup ∧
  (uc.map Prod.fst).Nodup ∧
  (∀ p ∈ uc, p.2.Nodup) ∧
  InvLists cs uc

def WF (s : ManagerState) : Prop :=
  WFlists s.clients s.userConnections

/-! ### Lemmas about the map and set helpers -/

theorem lookupClient_eq_some {l : List SSEClient} {cid : String} {c : SSEClient}
    (h : lookupClient l cid = some c) : c ∈ l ∧ c.id = cid := by
  induction l with
  | nil => simp [lookupClient] at h
  | cons x xs ih =>
    simp only [lookupClient] at h
    by_cases hx : x.id = cid
    · rw [if_pos hx] at h
      have hxc : x = c := Option.some.inj h
      subst hxc
      exact ⟨List.mem_cons_self x xs, hx⟩
    · rw [if_neg hx] at h
      obtain ⟨h1, h2⟩ := ih h
      exact ⟨List.mem_cons_of_mem x h1, h2⟩

theorem lookupClient_eq_none {l : List SSEClient} {cid : String} :
    lookupClient l cid = none ↔ ∀ c ∈ l, c.id ≠ cid := by
  induction l with
  | nil => simp [lookupClient]
  | cons x xs ih =>
    simp only [lookupClient]
    by_cases hx : x.id = cid
    · simp [hx]
    · simp [hx, ih]

theorem lookupClient_of_mem {l : List SSEClient} {c : SSEClient}
    (hnd : (l.map (·.id)).Nodup) (hc : c ∈ l) : lookupClient l c.id = some c := by
  induction l with
  | nil => simp at hc
  | cons x xs ih =>
    simp only [List.map_cons, List.nodup_cons] at hnd
    rcases List.mem_cons.mp hc with rfl | hc2
    · simp [lookupClient]
    · simp only [lookupClient]
      by_cases hx : x.id = c.id
      · exact absurd (hx ▸ List.mem_map_of_mem (·.id) hc2) hnd.1
      · rw [if_neg hx]
        exact ih hnd.2 hc2

theorem mem_setClient_self (l : List SSEClient) (cid : String) (c : SSEClient) :
    c ∈ setClient l cid c := by
  induction l with
  | nil => simp [setClient]
  | cons x xs ih =>
    simp only [setClient]
    by_cases hx : x.id = cid
    · simp [hx]
    · simp only [if_neg hx]
      exact List.mem_cons_of_mem x ih

theorem mem_setClient_of_ne {l : List SSEClient} {c : SSEClient} {cid : String}
    (c' : SSEClient) (hc : c ∈ l) (hne : c.id ≠ cid) : c ∈ setClient l cid c' := by
  induction l with
  | nil => simp at hc
  | cons x xs ih =>
    simp only [setClient]
    by_cases hx : x.id = cid
    · rcases List.mem_cons.mp hc with rfl | hc2
      · exact absurd hx hne
      · simp only [if_pos hx]
        exact List.mem_cons_of_mem c' hc2
    · rcases List.mem_cons.mp hc with rfl | hc2
      · simp [if_neg hx]
      · simp only [if_neg hx]
        exact List.mem_cons_of_mem x (ih hc2)

theorem mem_setClient_cases {l : List SSEClient} {x c : SSEClient} {cid : String}
    (h : x ∈ setClient l cid c) : x ∈ l ∨ x = c := by
  induction l with
  | nil =>
    simp only [setClient, List.mem_singleton] at h
    exact Or.inr h
  | cons y ys ih =>
    simp only [setClient] at h
    by_cases hy : y.id = cid
    · rw [if_pos hy] at h
      rcases List.mem_cons.mp h with rfl | h2
      · exact Or.inr rfl
      · exact Or.inl (List.mem_cons_of_mem y h2)
    · rw [if_neg hy] at h
      rcases List.mem_cons.mp h with rfl | h2
      · exact Or.inl (List.mem_cons_self x ys)
      · rcases ih h2 with h3 | h3
        · exact Or.inl (List.mem_cons_of_mem y h3)
        · exact Or.inr h3

theorem lookupClient_setClient {l : List SSEClient} {cid : String} {c : SSEClient}
    (hc : c.id = cid) (x : String) :
    lookupClient (setClient l cid c) x = if x = cid then some c else lookupClient l x := by
  induction l with
  | nil =>
    by_cases hx : x = cid
    · subst hx
      simp [setClient, lookupClient, hc]
    · have h1 : c.id ≠ x := fun h => hx ((hc.symm.trans h).symm)
      simp [setClient, lookupClient, h1, hx]
  | cons y ys ih =>
    simp only [setClient]
    by_cases hy : y.id = cid
    · rw [if_pos hy]
      by_cases hx : x = cid
      · subst hx
        simp [lookupClient, hc]
      · have h1 : c.id ≠ x := fun h => hx ((hc.symm.trans h).symm)
        have h2 : y.id ≠ x := fun h => hx ((hy.symm.trans h).symm)
        simp [lookupClient, h1, h2, hx]
    · rw [if_neg hy]
      by_cases hyx : y.id = x
      · have hx : ¬x = cid := fun h => hy (hyx.trans h)
        simp [lookupClient, hyx, hx]
      · simp [lookupClient, hyx, ih]

theorem lookupClient_setClient_self {l : List SSEClient} {cid : String} {c : SSEClient}
    (hc : c.id = cid) : lookupClient (setClient l cid c) cid = some c := by
  rw [lookupClient_setClient hc, if_pos rfl]

theorem setClient_of_not_mem {l : List SSEClient} {cid : String}
    (h : ∀ x ∈ l, x.id ≠ cid) (c : SSEClient) : setClient l cid c = l ++ [c] := by
  induction l with
  | nil => simp [setClient]
  | cons y ys ih =>
    simp only [setClient]
    rw [if_neg (h y (List.mem_cons_self y ys))]
    rw [ih (fun x hx => h x (List.mem_cons_of_mem y hx))]
    simp

theorem ids_setClient_of_lookup {l : List SSEClient} {cid : String} {c0 c : SSEClient}
    (h : lookupClient l cid = some c0) (hc : c.id = cid) :
    (setClient l cid c).map (·.id) = l.map (·.id) := by
  induction l with
  | nil => simp [lookupClient] at h
  | cons y ys ih =>
    simp only [lookupClient] at h
    simp only [setClient]
    by_cases hy : y.id = cid
    · rw [if_pos hy]
      simp [hc, hy]
    · rw [if_neg hy] at h ⊢
      simp [ih h]

theorem length_setClient_of_lookup {l : List SSEClient} {cid : String} {c0 c : SSEClient}
    (h : lookupClient l cid = some c0) :
    (setClient l cid c).length = l.length := by
  induction l with
  | nil => simp [lookupClient] at h
  | cons y ys ih =>
    simp only [lookupClient] at h
    simp only [setClient]
    by_cases hy : y.id = cid
    · simp [hy]
    · rw [if_neg hy] at h ⊢
      simp [ih h]

theorem deleteClient_sublist (l : List SSEClient) (cid : String) :
    (deleteClient l cid).Sublist l := by
  induction l with
  | nil => simp [deleteClient]
  | cons y ys ih =>
    simp only [deleteClient]
    by_cases hy : y.id = cid
    · rw [if_pos hy]
      exact List.sublist_cons_self y ys
    · rw [if_neg hy]
      exact List.Sublist.cons₂ y ih

theorem mem_deleteClient {l : List SSEClient} {cid : String} {c : SSEClient}
    (h : c ∈ deleteClient l cid) : c ∈ l :=
  (deleteClient_sublist l cid).mem h

theorem mem_deleteClient_of_ne {l : List SSEClient} {c : SSEClient} {cid : String}
    (hc : c ∈ l) (hne : c.id ≠ cid) : c ∈ deleteClient l cid := by
  induction l with
  | nil => simp at hc
  | cons y ys ih =>
    simp only [deleteClient]
    by_cases hy : y.id = cid
    · rcases List.mem_cons.mp hc with rfl | hc2
      · exact absurd hy hne
      · rw [if_pos hy]; exact hc2
    · rcases List.mem_cons.mp hc with rfl | hc2
      · rw [if_neg hy]; exact List.mem_cons_self c _
      · rw [if_neg hy]; exact List.mem_cons_of_mem y (ih hc2)

theorem ids_deleteClient_sublist (l : List SSEClient) (cid : String) :
    ((deleteClient l cid).map (·.id)).Sublist (l.map (·.id)) :=
  (deleteClient_sublist l cid).map (·.id)

theorem not_mem_deleteClient_ids {l : List SSEClient} {cid : String}
    (hnd : (l.map (·.id)).Nodup) : ∀ c ∈ deleteClient l cid, c.id ≠ cid := by
  induction l with
  | nil => simp [deleteClient]
  | cons y ys ih =>
    simp only [List.map_cons, List.nodup_cons] at hnd
    intro c hc
    simp only [deleteClient] at hc
    by_cases hy : y.id = cid
    · rw [if_pos hy] at hc
      intro hcc
      exact hnd.1 (hy ▸ hcc ▸ List.mem_map_of_mem (·.id) hc)
    · rw [if_neg hy] at hc
      rcases List.mem_cons.mp hc with rfl | hc2
      · exact hy
      · exact ih hnd.2 c hc2

theorem lookupClient_deleteClient_ne {l : List SSEClient} {cid x : String}
    (hx : x ≠ cid) : lookupClient (deleteClient l cid) x = lookupClient l x := by
  induction l with
  | nil => simp [deleteClient]
  | cons y ys ih =>
    simp only [deleteClient]
    by_cases hy : y.id = cid
    · rw [if_pos hy]
      have h2 : y.id ≠ x := fun h => hx (hy.symm.trans h).symm
      simp [lookupClient, h2]
    · rw [if_neg hy]
      simp only [lookupClient, ih]

theorem lookupClient_deleteClient_self {l : List SSEClient} {cid : String}
    (hnd : (l.map (·.id)).Nodup) : lookupClient (deleteClient l cid) cid = none :=
  lookupClient_eq_none.mpr (not_mem_deleteClient_ids hnd)

theorem mem_addId_self (ids : List String) (cid : String) : cid ∈ addId ids cid := by
  unfold addId
  by_cases h : cid ∈ ids
  · simp [h]
  · simp [h]

theorem mem_addId_of_mem {ids : List String} {x : String} (cid : String)
    (h : x ∈ ids) : x ∈ addId ids cid := by
  unfold addId
  by_cases hc : cid ∈ ids
  · simp [hc, h]
  · simp [hc, h]

theorem mem_addId_cases {ids : List String} {x cid : String}
    (h : x ∈ addId ids cid) : x ∈ ids ∨ x = cid := by
  unfold addId at h
  by_cases hc : cid ∈ ids
  · rw [if_pos hc] at h
    exact Or.inl h
  · rw [if_neg hc] at h
    rcases List.mem_append.mp h with h1 | h1
    · exact Or.inl h1
    · exact Or.inr (List.mem_singleton.mp h1)

theorem nodup_addId {ids : List String} (cid : String) (h : ids.Nodup) :
    (addId ids cid).Nodup := by
  unfold addId
  by_cases hc : cid ∈ ids
  · simpa [hc]
  · simp [List.nodup_append, h, hc]

theorem addId_ne_nil (ids : List String) (cid : String) : addId ids cid ≠ [] := by
  intro h
  have hm := mem_addId_self ids cid
  rw [h] at hm
  simp at hm

theorem removeId_sublist (ids : List String) (cid : String) :
    (removeId ids cid).Sublist ids := by
  induction ids with
  | nil => simp [removeId]
  | cons y ys ih =>
    simp only [removeId]
    by_cases hy : y = cid
    · rw [if_pos hy]
      exact List.sublist_cons_self y ys
    · rw [if_neg hy]
      exact List.Sublist.cons₂ y ih

theorem mem_removeId {ids : List String} {x cid : String}
    (h : x ∈ removeId ids cid) : x ∈ ids :=
  (removeId_sublist ids cid).mem h

theorem mem_removeId_of_ne {ids : List String} {x cid : String}
    (hx : x ∈ ids) (hne : x ≠ cid) : x ∈ removeId ids cid := by
  induction ids with
  | nil => simp at hx
  | cons y ys ih =>
    simp only [removeId]
    by_cases hy : y = cid
    · rcases List.mem_cons.mp hx with rfl | hx2
      · exact absurd hy hne
      · rw [if_pos hy]; exact hx2
    · rcases List.mem_cons.mp hx with rfl | hx2
      · rw [if_neg hy]; exact List.mem_cons_self x (removeId ys cid)
      · rw [if_neg hy]; exact List.mem_cons_of_mem y (ih hx2)

theorem not_mem_removeId {ids : List String} {cid : String} (hnd : ids.Nodup) :
    cid ∉ removeId ids cid := by
  induction ids with
  | nil => simp [removeId]
  | cons y ys ih =>
    simp only [List.nodup_cons] at hnd
    simp only [removeId]
    by_cases hy : y = cid
    · rw [if_pos hy]
      exact fun h => hnd.1 (hy ▸ h)
    · rw [if_neg hy]
      intro h
      rcases List.mem_cons.mp h with h1 | h1
      · exact hy h1.symm
      · exact ih hnd.2 h1

/-! ### Lemmas about the user-index helpers -/

theorem lookupIndex_eq_some {l : List (String × List String)} {uid : String}
    {ids : List String} (h : lookupIndex l uid = some ids) : (uid, ids) ∈ l := by
  induction l with
  | nil => simp [lookupIndex] at h
  | cons p ps ih =>
    simp only [lookupIndex] at h
    by_cases hp : p.1 = uid
    · rw [if_pos hp] at h
      have h2 : p.2 = ids := Option.some.inj h
      have h3 : p = (uid, ids) := Prod.ext hp h2
      rw [← h3]
      exact List.mem_cons_self p ps
    · rw [if_neg hp] at h
      exact List.mem_cons_of_mem p (ih h)

theorem lookupIndex_eq_none {l : List (String × List String)} {uid : String} :
    lookupIndex l uid = none ↔ ∀ p ∈ l, p.1 ≠ uid := by
  induction l with
  | nil => simp [lookupIndex]
  | cons p ps ih =>
    simp only [lookupIndex]
    by_cases hp : p.1 = uid
    · simp [hp]
    · simp [hp, ih]

theorem lookupIndex_of_mem {l : List (String × List String)} {uid : String}
    {ids : List String} (hnd : (l.map Prod.fst).Nodup) (h : (uid, ids) ∈ l) :
    lookupIndex l uid = some ids := by
  induction l with
  | nil => simp at h
  | cons p ps ih =>
    simp only [List.map_cons, List.nodup_cons] at hnd
    rcases List.mem_cons.mp h with h1 | h1
    · simp [lookupIndex, ← h1]
    · simp only [lookupIndex]
      by_cases hp : p.1 = uid
      · exact absurd (hp ▸ List.mem_map_of_mem Prod.fst h1) hnd.1
      · rw [if_neg hp]
        exact ih hnd.2 h1

theorem keys_indexAdd (l : List (String × List String)) (uid cid : String) :
    (indexAdd l uid cid).map Prod.fst =
      if uid ∈ l.map Prod.fst then l.map Prod.fst else l.map Prod.fst ++ [uid] := by
  induction l with
  | nil => simp [indexAdd]
  | cons p ps ih =>
    simp only [indexAdd]
    by_cases hp : p.1 = uid
    · simp [hp]
    · rw [if_neg hp]
      simp only [List.map_cons, ih]
      by_cases hm : uid ∈ ps.map Prod.fst
      · rw [if_pos hm, if_pos (List.mem_cons_of_mem p.1 hm)]
      · have hm2 : uid ∉ p.1 :: ps.map Prod.fst := by
          intro hmem
          rcases List.mem_cons.mp hmem with h | h
          · exact hp h.symm
          · exact hm h
        rw [if_neg hm, if_neg hm2]
        simp

theorem mem_indexAdd_cases {l : List (String × List String)} {q : String × List String}
    {uid cid : String} (h : q ∈ indexAdd l uid cid) :
    q ∈ l ∨ (q.1 = uid ∧ q.2 = [cid]) ∨
      (∃ ids, (uid, ids) ∈ l ∧ q.1 = uid ∧ q.2 = addId ids cid) := by
  induction l with
  | nil =>
    simp only [indexAdd, List.mem_singleton] at h
    subst h
    exact Or.inr (Or.inl ⟨rfl, rfl⟩)
  | cons p ps ih =>
    simp only [indexAdd] at h
    by_cases hp : p.1 = uid
    · rw [if_pos hp] at h
      rcases List.mem_cons.mp h with rfl | h2
      · refine Or.inr (Or.inr ⟨p.2, ?_, hp, rfl⟩)
        rw [← hp]
        exact List.mem_cons_self (p.1, p.2) ps
      · exact Or.inl (List.mem_cons_of_mem p h2)
    · rw [if_neg hp] at h
      rcases List.mem_cons.mp h with rfl | h2
      · exact Or.inl (List.mem_cons_self q ps)
      · rcases ih h2 with h3 | h3 | ⟨ids, h3, h4, h5⟩
        · exact Or.inl (List.mem_cons_of_mem p h3)
        · exact Or.inr (Or.inl h3)
        · exact Or.inr (Or.inr ⟨ids, List.mem_cons_of_mem p h3, h4, h5⟩)

theorem mem_indexAdd_of_ne {l : List (String × List String)} {q : String × List String}
    {uid cid : String} (h : q ∈ l) (hne : q.1 ≠ uid) : q ∈ indexAdd l uid cid := by
  induction l with
  | nil => simp at h
  | cons p ps ih =>
    simp only [indexAdd]
    by_cases hp : p.1 = uid
    · rcases List.mem_cons.mp h with rfl | h2
      · exact absurd hp hne
      · rw [if_pos hp]
        exact List.mem_cons_of_mem _ h2
    · rcases List.mem_cons.mp h with rfl | h2
      · rw [if_neg hp]
        exact List.mem_cons_self q _
      · rw [if_neg hp]
        exact List.mem_cons_of_mem p (ih h2)

theorem lookupIndex_indexAdd (l : List (String × List String)) (uid cid : String)
    (x : String) :
    lookupIndex (indexAdd l uid cid) x =
      if x = uid then
        some (match lookupIndex l uid with
              | some ids => addId ids cid
              | none => [cid])
      else lookupIndex l x := by
  induction l with
  | nil =>
    by_cases hx : x = uid
    · simp [indexAdd, lookupIndex, hx]
    · have h1 : uid ≠ x := fun h => hx h.symm
      simp [indexAdd, lookupIndex, hx, h1]
  | cons p ps ih =>
    simp only [indexAdd]
    by_cases hp : p.1 = uid
    · rw [if_pos hp]
      by_cases hx : x = uid
      · subst hx
        simp [lookupIndex, hp]
      · have h1 : p.1 ≠ x := fun h => hx ((hp.symm.trans h).symm)
        simp [lookupIndex, h1, hx]
    · rw [if_neg hp]
      by_cases hx : x = uid
      · subst hx
        simp [lookupIndex, hp, ih]
      · by_cases hpx : p.1 = x
        · simp [lookupIndex, hpx, hx]
        · simp [lookupIndex, hpx, hx, ih]

theorem keys_indexRemove_sublist (l : List (String × List String)) (uid cid : String) :
    ((indexRemove l uid cid).map Prod.fst).Sublist (l.map Prod.fst) := by
  induction l with
  | nil => simp [indexRemove]
  | cons p ps ih =>
    simp only [indexRemove]
    by_cases hp : p.1 = uid
    · rw [if_pos hp]
      by_cases he : (removeId p.2 cid).isEmpty
      · rw [if_pos he]
        exact (List.sublist_cons_self p.1 (ps.map Prod.fst)).trans (List.Sublist.refl _)
      · rw [if_neg he]
        simp only [List.map_cons]
        exact List.Sublist.cons₂ p.1 (List.Sublist.refl _)
    · rw [if_neg hp]
      simp only [List.map_cons]
      exact List.Sublist.cons₂ p.1 ih

theorem mem_indexRemove_cases {l : List (String × List String)}
    {q : String × List String} {uid cid : String}
    (hnd : (l.map Prod.fst).Nodup) (h : q ∈ indexRemove l uid cid) :
    (q ∈ l ∧ q.1 ≠ uid) ∨
      (∃ ids, (uid, ids) ∈ l ∧ q = (uid, removeId ids cid) ∧ removeId ids cid ≠ []) := by
  induction l with
  | nil => simp [indexRemove] at h
  | cons p ps ih =>
    simp only [List.map_cons, List.nodup_cons] at hnd
    have hkey : ∀ r ∈ ps, r.1 ≠ p.1 := by
      intro r hr hcon
      exact hnd.1 (hcon ▸ List.mem_map_of_mem Prod.fst hr)
    simp only [indexRemove] at h
    by_cases hp : p.1 = uid
    · rw [if_pos hp] at h
      by_cases he : (removeId p.2 cid).isEmpty
      · rw [if_pos he] at h
        exact Or.inl ⟨List.mem_cons_of_mem p h, fun hc => hkey q h (hc.trans hp.symm)⟩
      · rw [if_neg he] at h
        rcases List.mem_cons.mp h with rfl | h2
        · refine Or.inr ⟨p.2, ?_, by rw [hp], ?_⟩
          · rw [← hp]
            exact List.mem_cons_self (p.1, p.2) ps
          · intro hnil
            rw [hnil] at he
            exact he rfl
        · exact Or.inl ⟨List.mem_cons_of_mem p h2, fun hc => hkey q h2 (hc.trans hp.symm)⟩
    · rw [if_neg hp] at h
      rcases List.mem_cons.mp h with rfl | h2
      · exact Or.inl ⟨List.mem_cons_self q ps, hp⟩
      · rcases ih hnd.2 h2 with ⟨h3, h4⟩ | ⟨ids, h3, h4, h5⟩
        · exact Or.inl ⟨List.mem_cons_of_mem p h3, h4⟩
        · exact Or.inr ⟨ids, List.mem_cons_of_mem p h3, h4, h5⟩

theorem mem_indexRemove_of_ne {l : List (String × List String)}
    {q : String × List String} {uid cid : String} (h : q ∈ l) (hne : q.1 ≠ uid) :
    q ∈ indexRemove l uid cid := by
  induction l with
  | nil => simp at h
  | cons p ps ih =>
    simp only [indexRemove]
    by_cases hp : p.1 = uid
    · rcases List.mem_cons.mp h with rfl | h2
      · exact absurd hp hne
      · rw [if_pos hp]
        by_cases he : (removeId p.2 cid).isEmpty
        · rw [if_pos he]; exact h2
        · rw [if_neg he]; exact List.mem_cons_of_mem _ h2
    · rcases List.mem_cons.mp h with rfl | h2
      · rw [if_neg hp]; exact List.mem_cons_self q _
      · rw [if_neg hp]; exact List.mem_cons_of_mem p (ih h2)

theorem indexRemove_mem_self {l : List (String × List String)} {uid cid : String}
    {ids : List String} (hnd : (l.map Prod.fst).Nodup) (h : (uid, ids) ∈ l)
    (hne : removeId ids cid ≠ []) : (uid, removeId ids cid) ∈ indexRemove l uid cid := by
  induction l with
  | nil => simp at h
  | cons p ps ih =>
    simp only [List.map_cons, List.nodup_cons] at hnd
    simp only [indexRemove]
    rcases List.mem_cons.mp h with h1 | h1
    · have hp : p.1 = uid := by rw [← h1]
      have hp2 : p.2 = ids := by rw [← h1]
      rw [if_pos hp, hp2]
      rw [if_neg (by simpa [List.isEmpty_iff] using hne)]
      rw [hp]
      exact List.mem_cons_self _ _
    · by_cases hp : p.1 = uid
      · have hmem : (uid : String) ∈ ps.map Prod.fst := List.mem_map_of_mem Prod.fst h1
        rw [← hp] at hmem
        exact absurd hmem hnd.1
      · rw [if_neg hp]
        exact List.mem_cons_of_mem p (ih hnd.2 h1)

/-! ### Preservation of well-formedness by the registry operations -/

theorem eq_of_mem_of_id_eq {l : List SSEClient} (hnd : (l.map (·.id)).Nodup)
    {c1 c2 : SSEClient} (h1 : c1 ∈ l) (h2 : c2 ∈ l) (h : c1.id = c2.id) : c1 = c2 := by
  have e1 := lookupClient_of_mem hnd h1
  have e2 := lookupClient_of_mem hnd h2
  rw [h] at e1
  exact Option.some.inj (e1.symm.trans e2)

theorem WF_initial : WF initialState := by
  refine ⟨by simp [initialState], by simp [initialState], ?_, ?_, ?_, ?_⟩ <;>
    simp [initialState]

/-- Deleting a client and unindexing it (the state change of `removeClient`)
preserves well-formedness. -/
theorem WFlists_remove {cs : List SSEClient} {uc : List (String × List String)}
    (h : WFlists cs uc) {cid : String} {client : SSEClient}
    (hl : lookupClient cs cid = some client) :
    WFlists (deleteClient cs cid)
      (match client.userId with
       | some uid => indexRemove uc uid cid
       | none => uc) := by
  obtain ⟨hnc, hnu, hns, hne, hsound, hcomp⟩ := h
  obtain ⟨hcm, hcid⟩ := lookupClient_eq_some hl
  rcases hu : client.userId with _ | uid
  · refine ⟨(ids_deleteClient_sublist cs cid).nodup hnc, hnu, hns, hne, ?_, ?_⟩
    · intro p hp x hx
      obtain ⟨c, hc, hcid2, huid2⟩ := hsound p hp x hx
      have hxne : c.id ≠ cid := by
        intro hcc
        have hce : c = client := eq_of_mem_of_id_eq hnc hc hcm (hcc.trans hcid.symm)
        rw [hce, hu] at huid2
        exact Option.noConfusion huid2
      exact ⟨c, mem_deleteClient_of_ne hc hxne, hcid2, huid2⟩
    · intro c hc uid2 huid2
      exact hcomp c (mem_deleteClient hc) uid2 huid2
  · refine ⟨(ids_deleteClient_sublist cs cid).nodup hnc,
      (keys_indexRemove_sublist uc uid cid).nodup hnu, ?_, ?_, ?_, ?_⟩
    · intro q hq
      rcases mem_indexRemove_cases hnu hq with ⟨hq2, _⟩ | ⟨ids, hm, hqe, _⟩
      · exact hns q hq2
      · rw [hqe]
        exact (removeId_sublist ids cid).nodup (hns (uid, ids) hm)
    · intro q hq
      rcases mem_indexRemove_cases hnu hq with ⟨hq2, _⟩ | ⟨ids, hm, hqe, hne2⟩
      · exact hne q hq2
      · rw [hqe]
        exact hne2
    · intro q hq x hx
      rcases mem_indexRemove_cases hnu hq with ⟨hq2, hqne⟩ | ⟨ids, hm, hqe, _⟩
      · obtain ⟨c, hc, hcid2, huid2⟩ := hsound q hq2 x hx
        have hxne : c.id ≠ cid := by
          intro hcc
          have hce : c = client := eq_of_mem_of_id_eq hnc hc hcm (hcc.trans hcid.symm)
          rw [hce, hu] at huid2
          exact hqne (Option.some.inj huid2).symm
        exact ⟨c, mem_deleteClient_of_ne hc hxne, hcid2, huid2⟩
      · subst hqe
        have hx2 : x ∈ ids := mem_removeId hx
        have hxne2 : x ≠ cid := fun hcc =>
          not_mem_removeId (hns (uid, ids) hm) (hcc ▸ hx)
        obtain ⟨c, hc, hcid2, huid2⟩ := hsound (uid, ids) hm x hx2
        exact ⟨c, mem_deleteClient_of_ne hc (fun hcon => hxne2 (hcid2.symm.trans hcon)),
          hcid2, huid2⟩
    · intro c hc uid2 huid2
      have hcmem : c ∈ cs := mem_deleteClient hc
      have hcne : c.id ≠ cid := not_mem_deleteClient_ids hnc c hc
      obtain ⟨p, hp, hp1, hpmem⟩ := hcomp c hcmem uid2 huid2
      by_cases huu : uid2 = uid
      · subst huu
        have hpl : (uid2, p.2) ∈ uc := by
          rw [← hp1]
          exact hp
        have hmem2 : c.id ∈ removeId p.2 cid := mem_removeId_of_ne hpmem hcne
        have hne3 : removeId p.2 cid ≠ [] := by
          intro hnil
          rw [hnil] at hmem2
          simp at hmem2
        exact ⟨(uid2, removeId p.2 cid), indexRemove_mem_self hnu hpl hne3, rfl, hmem2⟩
      · exact ⟨p, mem_indexRemove_of_ne hp (fun hcon => huu (hp1.symm.trans hcon)),
          hp1, hpmem⟩

/-- Overwriting a client record with one that keeps the same id and userId
(the `writeCount` bump of `sendToClient`, the `lastPing` refresh of the
heartbeat) preserves well-formedness. -/
theorem WFlists_set_refresh {cs : List SSEClient} {uc : List (String × List String)}
    (h : WFlists cs uc) {cid : String} {c0 c' : SSEClient}
    (hl : lookupClient cs cid = some c0) (hid : c'.id = cid)
    (huid : c'.userId = c0.userId) :
    WFlists (setClient cs cid c') uc := by
  obtain ⟨hnc, hnu, hns, hne, hsound, hcomp⟩ := h
  obtain ⟨hc0m, hc0id⟩ := lookupClient_eq_some hl
  refine ⟨?_, hnu, hns, hne, ?_, ?_⟩
  · rw [ids_setClient_of_lookup hl hid]
    exact hnc
  · intro p hp x hx
    obtain ⟨c, hc, hcid2, huid2⟩ := hsound p hp x hx
    by_cases hcc : c.id = cid
    · have hce : c = c0 := eq_of_mem_of_id_eq hnc hc hc0m (hcc.trans hc0id.symm)
      refine ⟨c', mem_setClient_self cs cid c', ?_, ?_⟩
      · exact hid.trans (hcc.symm.trans hcid2)
      · rw [huid, ← hce]
        exact huid2
    · exact ⟨c, mem_setClient_of_ne c' hc hcc, hcid2, huid2⟩
  · intro c hc uid2 huid2
    rcases mem_setClient_cases hc with hc2 | rfl
    · exact hcomp c hc2 uid2 huid2
    · rw [huid] at huid2
      obtain ⟨p, hp, hp1, hpm⟩ := hcomp c0 hc0m uid2 huid2
      refine ⟨p, hp, hp1, ?_⟩
      rw [hid, ← hc0id]
      exact hpm

/-- Registering a connection under a fresh id and indexing it (the state
change of `addClient` before the initial send) preserves well-formedness. -/
theorem WFlists_add_fresh {cs : List SSEClient} {uc : List (String × List String)}
    (h : WFlists cs uc) {cid : String} {newc : SSEClient}
    (hfresh : lookupClient cs cid = none) (hid : newc.id = cid) :
    WFlists (cs ++ [newc])
      (match newc.userId with
       | some uid => indexAdd uc uid cid
       | none => uc) := by
  obtain ⟨hnc, hnu, hns, hne, hsound, hcomp⟩ := h
  have hfreshAll : ∀ c ∈ cs, c.id ≠ cid := lookupClient_eq_none.mp hfresh
  have hidsnotin : cid ∉ cs.map (·.id) := by
    intro hmem
    obtain ⟨c, hc, hcc⟩ := List.mem_map.mp hmem
    exact hfreshAll c hc hcc
  have hnodup2 : ((cs ++ [newc]).map (·.id)).Nodup := by
    rw [List.map_append]
    refine List.Nodup.append hnc (by simp) ?_
    intro x hx1 hx2
    simp only [List.map_cons, List.map_nil, List.mem_singleton] at hx2
    rw [hx2, hid] at hx1
    exact hidsnotin hx1
  rcases hu : newc.userId with _ | uid
  · refine ⟨hnodup2, hnu, hns, hne, ?_, ?_⟩
    · intro p hp x hx
      obtain ⟨c, hc, hcid2, huid2⟩ := hsound p hp x hx
      exact ⟨c, List.mem_append_left _ hc, hcid2, huid2⟩
    · intro c hc uid2 huid2
      rcases List.mem_append.mp hc with hc2 | hc2
      · exact hcomp c hc2 uid2 huid2
      · rw [List.mem_singleton.mp hc2, hu] at huid2
        simp at huid2
  · refine ⟨hnodup2, ?_, ?_, ?_, ?_, ?_⟩
    · rw [keys_indexAdd]
      by_cases hm : uid ∈ uc.map Prod.fst
      · rw [if_pos hm]
        exact hnu
      · rw [if_neg hm]
        refine List.Nodup.append hnu (by simp) ?_
        intro x hx1 hx2
        simp only [List.mem_singleton] at hx2
        rw [hx2] at hx1
        exact hm hx1
    · intro q hq
      rcases mem_indexAdd_cases hq with h1 | ⟨_, h2⟩ | ⟨ids, hm, _, h2⟩
      · exact hns q h1
      · rw [h2]
        simp
      · rw [h2]
        exact nodup_addId cid (hns (uid, ids) hm)
    · intro q hq
      rcases mem_indexAdd_cases hq with h1 | ⟨_, h2⟩ | ⟨ids, hm, _, h2⟩
      · exact hne q h1
      · rw [h2]
        simp
      · rw [h2]
        exact addId_ne_nil ids cid
    · intro q hq x hx
      rcases mem_indexAdd_cases hq with h1 | ⟨h1, h2⟩ | ⟨ids, hm, h1, h2⟩
      · obtain ⟨c, hc, hcid2, huid2⟩ := hsound q h1 x hx
        exact ⟨c, List.mem_append_left _ hc, hcid2, huid2⟩
      · rw [h2] at hx
        rw [List.mem_singleton.mp hx]
        refine ⟨newc, List.mem_append_right _ (List.mem_singleton.mpr rfl), hid, ?_⟩
        rw [hu, h1]
      · rw [h2] at hx
        rcases mem_addId_cases hx with hx2 | rfl
        · obtain ⟨c, hc, hcid2, huid2⟩ := hsound (uid, ids) hm x hx2
          refine ⟨c, List.mem_append_left _ hc, hcid2, ?_⟩
          rw [huid2, h1]
        · refine ⟨newc, List.mem_append_right _ (List.mem_singleton.mpr rfl), hid, ?_⟩
          rw [hu, h1]
    · intro c hc uid2 huid2
      rcases List.mem_append.mp hc with hc2 | hc2
      · obtain ⟨p, hp, hp1, hpm⟩ := hcomp c hc2 uid2 huid2
        by_cases huu : uid2 = uid
        · subst huu
          have hlook : lookupIndex uc uid2 = some p.2 := by
            apply lookupIndex_of_mem hnu
            rw [← hp1]
            exact hp
          have hlook2 : lookupIndex (indexAdd uc uid2 cid) uid2 = some (addId p.2 cid) := by
            rw [lookupIndex_indexAdd, if_pos rfl, hlook]
          exact ⟨(uid2, addId p.2 cid), lookupIndex_eq_some hlook2, rfl,
            mem_addId_of_mem cid hpm⟩
        · exact ⟨p, mem_indexAdd_of_ne hp (fun hcon => huu (hp1.symm.trans hcon)),
            hp1, hpm⟩
      · rw [List.mem_singleton.mp hc2] at huid2 ⊢
        rw [hu] at huid2
        simp only [Option.toList_some, List.mem_singleton] at huid2
        subst huid2
        rcases hlook : lookupIndex uc uid2 with _ | ids
        · have hlook2 : lookupIndex (indexAdd uc uid2 cid) uid2 = some [cid] := by
            rw [lookupIndex_indexAdd, if_pos rfl, hlook]
          exact ⟨(uid2, [cid]), lookupIndex_eq_some hlook2, rfl,
            by rw [hid]; exact List.mem_singleton.mpr rfl⟩
        · have hlook2 : lookupIndex (indexAdd uc uid2 cid) uid2 = some (addId ids cid) := by
            rw [lookupIndex_indexAdd, if_pos rfl, hlook]
          exact ⟨(uid2, addId ids cid), lookupIndex_eq_some hlook2, rfl,
            by rw [hid]; exact mem_addId_self ids cid⟩

/-- The same fact phrased through `setClient`, which is what `addClient`
actually calls: on a fresh id `Map.set` is an append. -/
theorem WFlists_add_fresh_set {cs : List SSEClient} {uc : List (String × List String)}
    (h : WFlists cs uc) {cid : String} {newc : SSEClient}
    (hfresh : lookupClient cs cid = none) (hid : newc.id = cid) :
    WFlists (setClient cs cid newc)
      (match newc.userId with
       | some uid => indexAdd uc uid cid
       | none => uc) := by
  rw [setClient_of_not_mem (lookupClient_eq_none.mp hfresh) newc]
  exact WFlists_add_fresh h hfresh hid

/-! State-level preservation -/

theorem WF_removeClient {s : ManagerState} (h : WF s) (cid : String) :
    WF (removeClient s cid) := by
  rcases hl : lookupClient s.clients cid with _ | client
  · simp only [removeClient, hl]
    exact h
  · simp only [removeClient, hl]
    exact WFlists_remove h hl

theorem WF_sendToClient {s : ManagerState} (h : WF s) (cid : String) (e : SSEEvent) :
    WF (sendToClient s cid e).2 := by
  rcases hl : lookupClient s.clients cid with _ | client
  · simp only [sendToClient, hl]
    exact h
  · simp only [sendToClient, hl]
    by_cases hw : client.controller.writeOk client.writeCount
    · rw [if_pos hw]
      exact WFlists_set_refresh h hl (lookupClient_eq_some hl).2 rfl
    · rw [if_neg hw]
      exact WF_removeClient h cid

theorem hasClient_false {s : ManagerState} {cid : String}
    (h : hasClient s cid = false) : lookupClient s.clients cid = none := by
  unfold hasClient at h
  rcases hl : lookupClient s.clients cid with _ | c
  · rfl
  · rw [hl] at h
    simp at h

theorem WF_addClient_ok {cfg : SSEManagerConfig} {s : ManagerState} {cid : String}
    {ctrl : Sink} {uid sid : Option String} {now : Nat} {s' : ManagerState}
    (h : WF s) (hfresh : lookupClient s.clients cid = none)
    (hok : addClient cfg s cid ctrl uid sid now = Except.ok s') : WF s' := by
  unfold addClient at hok
  by_cases hcap : cfg.maxConnections ≤ s.clients.length
  · rw [if_pos hcap] at hok
    exact Except.noConfusion hok
  · rw [if_neg hcap] at hok
    rcases uid with _ | u
    · simp only at hok
      obtain rfl := Except.ok.inj hok
      apply WF_sendToClient
      exact WFlists_add_fresh_set h hfresh rfl
    · simp only at hok
      obtain rfl := Except.ok.inj hok
      apply WF_sendToClient
      exact WFlists_add_fresh_set h hfresh rfl

theorem WF_foldl_remove (ids : List String) :
    ∀ {s : ManagerState}, WF s → WF (ids.foldl removeClient s) := by
  induction ids with
  | nil => intro s h; exact h
  | cons cid rest ih =>
    intro s h
    rw [List.foldl_cons]
    exact ih (WF_removeClient h cid)

theorem WF_sendRound_aux (e : SSEEvent) (ids : List String) :
    ∀ acc : Nat × ManagerState, WF acc.2 →
      WF (ids.foldl (fun acc cid =>
        let r := sendToClient acc.2 cid e
        (if r.1 then acc.1 + 1 else acc.1, r.2)) acc).2 := by
  induction ids with
  | nil => intro acc h; exact h
  | cons cid rest ih =>
    intro acc h
    rw [List.foldl_cons]
    exact ih _ (WF_sendToClient h cid e)

theorem WF_sendRound {s : ManagerState} (h : WF s) (ids : List String) (e : SSEEvent) :
    WF (sendRound s ids e).2 :=
  WF_sendRound_aux e ids (0, s) h

theorem WF_sendToUser {s : ManagerState} (h : WF s) (uid : String) (e : SSEEvent) :
    WF (sendToUser s uid e).2 := by
  rcases hl : lookupIndex s.userConnections uid with _ | ids
  · simp only [sendToUser, hl]
    exact h
  · simp only [sendToUser, hl]
    by_cases hemp : ids.isEmpty
    · rw [if_pos hemp]
      exact h
    · rw [if_neg hemp]
      exact WF_sendRound h ids e

theorem WF_broadcast {s : ManagerState} (h : WF s) (e : SSEEvent) :
    WF (broadcast s e).2 := by
  unfold broadcast
  exact WF_sendRound h (s.clients.map (·.id)) e

theorem WF_heartbeatStep {s : ManagerState} (h : WF s) (cid : String) (e : SSEEvent)
    (now : Nat) :
    WF (let r := sendToClient s cid e
        if r.1 then
          match lookupClient r.2.clients cid with
          | some c => { r.2 with clients := setClient r.2.clients cid { c with lastPing := now } }
          | none => r.2
        else r.2) := by
  have h2 := WF_sendToClient h cid e
  by_cases hw : (sendToClient s cid e).1
  · rcases hl : lookupClient (sendToClient s cid e).2.clients cid with _ | c
    · simp only [hl, if_pos hw]
      exact h2
    · simp only [hl, if_pos hw]
      exact WFlists_set_refresh h2 hl (lookupClient_eq_some hl).2 rfl
  · simp only [if_neg hw]
    exact h2

theorem WF_heartbeatLoop (e : SSEEvent) (now : Nat) (ids : List String) :
    ∀ {s : ManagerState}, WF s → WF (heartbeatLoop s ids e now) := by
  induction ids with
  | nil => intro s h; exact h
  | cons cid rest ih =>
    intro s h
    unfold heartbeatLoop at ih ⊢
    rw [List.foldl_cons]
    exact ih (WF_heartbeatStep h cid e now)

theorem WF_heartbeatTick {cfg : SSEManagerConfig} {s : ManagerState} (h : WF s)
    (now : Nat) : WF (heartbeatTick cfg s now) := by
  unfold heartbeatTick
  exact WF_heartbeatLoop _ _ _ (WF_foldl_remove _ h)

theorem WF_destroy {s : ManagerState} (h : WF s) : WF (destroy s) :=
  WF_foldl_remove _ h

theorem WF_applyOp {cfg : SSEManagerConfig} {s : ManagerState} {op : Op}
    (h : WF s) (hf : opFresh s op) : WF (applyOp cfg s op) := by
  cases op with
  | add cid ctrl uid sid now =>
    rcases hok : addClient cfg s cid ctrl uid sid now with e | s'
    · simp only [applyOp, hok]
      exact h
    · simp only [applyOp, hok]
      exact WF_addClient_ok h (hasClient_false hf) hok
  | remove cid => exact WF_removeClient h cid
  | sendClient cid e => exact WF_sendToClient h cid e
  | sendUser uid e => exact WF_sendToUser h uid e
  | bcast e => exact WF_broadcast h e
  | tick now => exact WF_heartbeatTick h now
  | shutdown => exact WF_destroy h

theorem WF_applyOps {cfg : SSEManagerConfig} (ops : List Op) :
    ∀ {s : ManagerState}, WF s → FreshSeq cfg s ops → WF (applyOps cfg s ops) := by
  induction ops with
  | nil => intro s h _; exact h
  | cons op rest ih =>
    intro s h hf
    unfold applyOps
    rw [List.foldl_cons]
    exact ih (WF_applyOp h hf.1) hf.2

/-- From well-formedness, the spec's iff: an id is indexed under `u` exactly
when the connection map holds it with `userId = u`. -/
theorem WF_mem_index_iff {s : ManagerState} (h : WF s) (u cid : String) :
    (∃ ids, lookupIndex s.userConnections u = some ids ∧ cid ∈ ids) ↔
      (∃ c, lookupClient s.clients cid = some c ∧ c.userId = some u) := by
  obtain ⟨hnc, hnu, hns, hne, hsound, hcomp⟩ := h
  constructor
  · rintro ⟨ids, hl, hmem⟩
    obtain ⟨c, hc, hcid, huid⟩ := hsound (u, ids) (lookupIndex_eq_some hl) cid hmem
    refine ⟨c, ?_, huid⟩
    rw [← hcid]
    exact lookupClient_of_mem hnc hc
  · rintro ⟨c, hl, huid⟩
    obtain ⟨hcm, hcid⟩ := lookupClient_eq_some hl
    obtain ⟨p, hp, hp1, hpm⟩ := hcomp c hcm u (by rw [huid]; simp)
    refine ⟨p.2, ?_, ?_⟩
    · apply lookupIndex_of_mem hnu
      rw [← hp1]
      exact hp
    · rw [← hcid]
      exact hpm

theorem WF_no_empty_entry {s : ManagerState} (h : WF s) (u : String)
    (ids : List String) (hl : lookupIndex s.userConnections u = some ids) :
    ids ≠ [] :=
  h.2.2.2.1 (u, ids) (lookupIndex_eq_some hl)

/-! ### Connection-count bounds -/

theorem length_setClient_le (l : List SSEClient) (cid : String) (c : SSEClient) :
    (setClient l cid c).length ≤ l.length + 1 := by
  induction l with
  | nil => simp [setClient]
  | cons x xs ih =>
    simp only [setClient]
    by_cases hx : x.id = cid
    · rw [if_pos hx]
      simp
    · rw [if_neg hx]
      simp only [List.length_cons]
      omega

theorem length_removeClient_le (s : ManagerState) (cid : String) :
    (removeClient s cid).clients.length ≤ s.clients.length := by
  rcases hl : lookupClient s.clients cid with _ | c
  · simp only [removeClient, hl]
    exact le_rfl
  · simp only [removeClient, hl]
    exact (deleteClient_sublist s.clients cid).length_le

theorem length_sendToClient_le (s : ManagerState) (cid : String) (e : SSEEvent) :
    (sendToClient s cid e).2.clients.length ≤ s.clients.length := by
  rcases hl : lookupClient s.clients cid with _ | c
  · simp only [sendToClient, hl]
    exact le_rfl
  · simp only [sendToClient, hl]
    by_cases hw : c.controller.writeOk c.writeCount
    · rw [if_pos hw]
      exact le_of_eq (length_setClient_of_lookup hl)
    · rw [if_neg hw]
      exact length_removeClient_le s cid

theorem length_sendRound_fold_le (e : SSEEvent) (ids : List String) :
    ∀ acc : Nat × ManagerState,
      (ids.foldl (fun acc cid =>
        let r := sendToClient acc.2 cid e
        (if r.1 then acc.1 + 1 else acc.1, r.2)) acc).2.clients.length ≤
        acc.2.clients.length := by
  induction ids with
  | nil => intro acc; exact le_rfl
  | cons cid rest ih =>
    intro acc
    rw [List.foldl_cons]
    exact le_trans (ih _) (length_sendToClient_le acc.2 cid e)

theorem length_sendRound_le (s : ManagerState) (ids : List String) (e : SSEEvent) :
    (sendRound s ids e).2.clients.length ≤ s.clients.length := by
  unfold sendRound
  exact length_sendRound_fold_le e ids (0, s)

theorem length_sendToUser_le (s : ManagerState) (uid : String) (e : SSEEvent) :
    (sendToUser s uid e).2.clients.length ≤ s.clients.length := by
  rcases hl : lookupIndex s.userConnections uid with _ | ids
  · simp only [sendToUser, hl]
    exact le_rfl
  · simp only [sendToUser, hl]
    by_cases hemp : ids.isEmpty
    · rw [if_pos hemp]
    · rw [if_neg hemp]
      exact length_sendRound_le s ids e

theorem length_broadcast_le (s : ManagerState) (e : SSEEvent) :
    (broadcast s e).2.clients.length ≤ s.clients.length := by
  unfold broadcast
  exact length_sendRound_le s _ e

theorem length_heartbeatStep_le (s : ManagerState) (cid : String) (e : SSEEvent)
    (now : Nat) :
    (let r := sendToClient s cid e
     if r.1 then
       match lookupClient r.2.clients cid with
       | some c => { r.2 with clients := setClient r.2.clients cid { c with lastPing := now } }
       | none => r.2
     else r.2).clients.length ≤ s.clients.length := by
  by_cases hw : (sendToClient s cid e).1
  · rcases hl : lookupClient (sendToClient s cid e).2.clients cid with _ | c
    · simp only [hl, if_pos hw]
      exact length_sendToClient_le s cid e
    · simp only [hl, if_pos hw]
      exact le_trans (le_of_eq (length_setClient_of_lookup hl))
        (length_sendToClient_le s cid e)
  · simp only [if_neg hw]
    exact length_sendToClient_le s cid e

theorem length_heartbeatLoop_le (e : SSEEvent) (now : Nat) (ids : List String) :
    ∀ s : ManagerState, (heartbeatLoop s ids e now).clients.length ≤ s.clients.length := by
  induction ids with
  | nil => intro s; exact le_rfl
  | cons cid rest ih =>
    intro s
    unfold heartbeatLoop at ih ⊢
    rw [List.foldl_cons]
    exact le_trans (ih _) (length_heartbeatStep_le s cid e now)

theorem length_foldl_remove_le (ids : List String) :
    ∀ s : ManagerState, (ids.foldl removeClient s).clients.length ≤ s.clients.length := by
  induction ids with
  | nil => intro s; exact le_rfl
  | cons cid rest ih =>
    intro s
    rw [List.foldl_cons]
    exact le_trans (ih _) (length_removeClient_le s cid)

theorem length_heartbeatTick_le (cfg : SSEManagerConfig) (s : ManagerState) (now : Nat) :
    (heartbeatTick cfg s now).clients.length ≤ s.clients.length := by
  unfold heartbeatTick
  exact le_trans (length_heartbeatLoop_le _ now _ _) (length_foldl_remove_le _ s)

theorem length_destroy_le (s : ManagerState) :
    (destroy s).clients.length ≤ s.clients.length :=
  length_foldl_remove_le _ s

theorem addClient_capacity_error {cfg : SSEManagerConfig} {s : ManagerState}
    {cid : String} {ctrl : Sink} {uid sid : Option String} {now : Nat}
    (hcap : cfg.maxConnections ≤ s.clients.length) :
    addClient cfg s cid ctrl uid sid now = Except.error "Maximum connections reached" := by
  unfold addClient
  rw [if_pos hcap]

theorem addClient_ok_length {cfg : SSEManagerConfig} {s : ManagerState} {cid : String}
    {ctrl : Sink} {uid sid : Option String} {now : Nat} {s' : ManagerState}
    (hok : addClient cfg s cid ctrl uid sid now = Except.ok s') :
    s.clients.length < cfg.maxConnections ∧
      s'.clients.length ≤ s.clients.length + 1 := by
  unfold addClient at hok
  by_cases hcap : cfg.maxConnections ≤ s.clients.length
  · rw [if_pos hcap] at hok
    exact Except.noConfusion hok
  · rw [if_neg hcap] at hok
    refine ⟨by omega, ?_⟩
    rcases uid with _ | u
    · simp only at hok
      obtain rfl := Except.ok.inj hok
      exact le_trans (length_sendToClient_le _ _ _) (length_setClient_le _ _ _)
    · simp only at hok
      obtain rfl := Except.ok.inj hok
      exact le_trans (length_sendToClient_le _ _ _) (length_setClient_le _ _ _)

theorem length_applyOp_le {cfg : SSEManagerConfig} {s : ManagerState} {op : Op}
    (h : s.clients.length ≤ cfg.maxConnections) :
    (applyOp cfg s op).clients.length ≤ cfg.maxConnections := by
  cases op with
  | add cid ctrl uid sid now =>
    rcases hok : addClient cfg s cid ctrl uid sid now with e | s'
    · simp only [applyOp, hok]
      exact h
    · simp only [applyOp, hok]
      obtain ⟨h1, h2⟩ := addClient_ok_length hok
      omega
  | remove cid => exact le_trans (length_removeClient_le s cid) h
  | sendClient cid e => exact le_trans (length_sendToClient_le s cid e) h
  | sendUser uid e => exact le_trans (length_sendToUser_le s uid e) h
  | bcast e => exact le_trans (length_broadcast_le s e) h
  | tick now => exact le_trans (length_heartbeatTick_le cfg s now) h
  | shutdown => exact le_trans (length_destroy_le s) h

theorem length_applyOps_le (cfg : SSEManagerConfig) (ops : List Op) :
    ∀ s : ManagerState, s.clients.length ≤ cfg.maxConnections →
      (applyOps cfg s ops).clients.length ≤ cfg.maxConnections := by
  induction ops with
  | nil => intro s h; exact h
  | cons op rest ih =>
    intro s h
    unfold applyOps at ih ⊢
    rw [List.foldl_cons]
    exact ih _ (length_applyOp_le h)

/-! ### The claims -/

/-- A sink that accepts every write and closes cleanly, for concrete runs. -/
def probeSink : Sink := { writeOk := fun _ => true, closeOk := true }

/-- A concrete operation sequence used to witness claim C1. -/
def probeOps : List Op :=
  [Op.add "c1" probeSink (some "u1") none 5,
   Op.add "c2" probeSink (some "u1") none 6,
   Op.remove "c1"]

/-- C1: for every sequence of registry operations whose `addClient`s are
issued for ids not already registered, the resulting registry state
satisfies the data-model invariant: a connection id is a member of
`userIndex[u]` iff the connection map contains that id with `userId = u`,
and no user is mapped to an empty set (the entry is deleted instead). -/
theorem claim1_registry_invariant (cfg : SSEManagerConfig) (ops : List Op)
    (hfresh : FreshSeq cfg initialState ops) :
    RegistryInvariant (applyOps cfg initialState ops) ∧
    (∀ u cid,
      (∃ ids, lookupIndex (applyOps cfg initialState ops).userConnections u = some ids ∧
          cid ∈ ids) ↔
      (∃ c, lookupClient (applyOps cfg initialState ops).clients cid = some c ∧
          c.userId = some u)) ∧
    (∀ u ids, lookupIndex (applyOps cfg initialState ops).userConnections u = some ids →
      ids ≠ []) := by
  have h := WF_applyOps ops WF_initial hfresh
  exact ⟨h.2.2.2, fun u cid => WF_mem_index_iff h u cid,
    fun u ids hl => WF_no_empty_entry h u ids hl⟩

/-- Witness for C1 at a concrete run: two clients of one user, one removed. -/
theorem claim1_registry_invariant_witness :
    FreshSeq defaultConfig initialState probeOps ∧
    (RegistryInvariant (applyOps defaultConfig initialState probeOps) ∧
     (∀ u cid,
       (∃ ids, lookupIndex (applyOps defaultConfig initialState probeOps).userConnections u =
           some ids ∧ cid ∈ ids) ↔
       (∃ c, lookupClient (applyOps defaultConfig initialState probeOps).clients cid = some c ∧
           c.userId = some u)) ∧
     (∀ u ids,
       lookupIndex (applyOps defaultConfig initialState probeOps).userConnections u = some ids →
       ids ≠ [])) :=
  ⟨⟨rfl, rfl, trivial, trivial⟩,
   claim1_registry_invariant defaultConfig probeOps ⟨rfl, rfl, trivial, trivial⟩⟩

/-- C2: `addClient` at or above capacity fails with the capacity error and
leaves the registry unchanged, and consequently the connection count never
exceeds `maxConnections` along any operation sequence from the empty
registry. -/
theorem claim2_capacity (cfg : SSEManagerConfig) :
    (∀ (s : ManagerState) (cid : String) (ctrl : Sink) (uid sid : Option String)
        (now : Nat), cfg.maxConnections ≤ s.clients.length →
      addClient cfg s cid ctrl uid sid now = Except.error "Maximum connections reached" ∧
      applyOp cfg s (Op.add cid ctrl uid sid now) = s) ∧
    (∀ ops : List Op, (applyOps cfg initialState ops).clients.length ≤ cfg.maxConnections) := by
  constructor
  · intro s cid ctrl uid sid now hcap
    refine ⟨addClient_capacity_error hcap, ?_⟩
    simp only [applyOp, addClient_capacity_error hcap]
  · intro ops
    exact length_applyOps_le cfg ops initialState (by simp [initialState])

/-- A configuration with room for a single connection. -/
def capConfig : SSEManagerConfig :=
  { heartbeatInterval := 30000, connectionTimeout := 60000, maxConnections := 1 }

/-- A registry at capacity under `capConfig`. -/
def capState : ManagerState :=
  applyOps capConfig initialState [Op.add "c1" probeSink none none 0]

/-- Witness for C2: with a cap of one and one client registered, a second
`addClient` fails and mutates nothing, and runs stay within the cap. -/
theorem claim2_capacity_witness :
    capConfig.maxConnections ≤ capState.clients.length ∧
    (addClient capConfig capState "c2" probeSink none none 7 =
        Except.error "Maximum connections reached" ∧
      applyOp capConfig capState (Op.add "c2" probeSink none none 7) = capState) ∧
    (applyOps capConfig initialState
        [Op.add "c1" probeSink none none 0, Op.add "c2" probeSink none none 7,
         Op.tick 70000]).clients.length ≤ capConfig.maxConnections :=
  ⟨by decide,
   (claim2_capacity capConfig).1 capState "c2" probeSink none none 7 (by decide),
   (claim2_capacity capConfig).2
     [Op.add "c1" probeSink none none 0, Op.add "c2" probeSink none none 7,
      Op.tick 70000]⟩

theorem string_append_assoc (a b c : String) : a ++ b ++ c = a ++ (b ++ c) := by
  apply String.ext
  simp [String.data_append]

/-- C4: the concrete event `{type: "notification", data: {a:1}, id: "x1"}`
encodes exactly to `id: x1\nevent: notification\ndata: {"a":1}\n\n`, and any
event whose data is the string `"line1\nline2"` encodes to its headers
followed by two consecutive `data:` lines and the blank-line terminator. -/
theorem claim4_frame_encoding :
    formatSSEMessage { type := "notification",
                       data := Json.obj [("a", Json.num 1)],
                       id := some "x1", retry := none } =
      "id: x1\nevent: notification\ndata: \x7b\"a\":1\x7d\n\n" ∧
    (∀ e : SSEEvent, e.data = Json.str "line1\nline2" →
      formatSSEMessage e =
        idHeader e.id ++ typeHeader e.type ++ retryHeader e.retry ++
          "data: line1\ndata: line2\n\n") := by
  constructor
  · rfl
  · intro e hdata
    unfold formatSSEMessage
    rw [hdata, string_append_assoc]
    rfl

/-- Witness for the quantified half of C4 at a concrete event. -/
theorem claim4_frame_encoding_witness :
    ({ type := "notification",
       data := Json.str "line1\nline2",
       id := some "x1", retry := none } : SSEEvent).data = Json.str "line1\nline2" ∧
    formatSSEMessage { type := "notification",
                       data := Json.str "line1\nline2",
                       id := some "x1", retry := none } =
      idHeader (some "x1") ++ typeHeader "notification" ++ retryHeader none ++
        "data: line1\ndata: line2\n\n" :=
  ⟨rfl, claim4_frame_encoding.2
    { type := "notification", data := Json.str "line1\nline2", id := some "x1",
      retry := none } rfl⟩

/-- C9: the encoder is a total function of the event (it cannot throw), and
for every event it produces the headers, then one `data: ` line per
newline-separated segment of the serialized payload — the segments rejoin to
exactly the payload text and none contains a newline — and one final blank
line.  String data is used verbatim; any other payload is serialized with
`Json.stringify`. -/
theorem claim9_encode_total (e : SSEEvent) :
    ∃ lines : List (List Char),
      formatSSEMessage e =
        idHeader e.id ++ typeHeader e.type ++ retryHeader e.retry ++
          strJoin (lines.map (fun l => "data: " ++ String.mk l ++ "\n")) ++ "\n" ∧
      joinNl lines = (eventDataString e.data).data ∧
      lines ≠ [] ∧
      (∀ l ∈ lines, '\n' ∉ l) ∧
      (∀ s, e.data = Json.str s → eventDataString e.data = s) ∧
      ((∀ s, e.data ≠ Json.str s) → eventDataString e.data = Json.stringify e.data) := by
  refine ⟨splitNl (eventDataString e.data).data, ?_, joinNl_splitNl _,
    splitNl_ne_nil _, not_nl_mem_splitNl _, ?_, ?_⟩
  · unfold formatSSEMessage dataBlock jsSplitNl
    rw [List.map_map]
    rfl
  · intro s hs
    rw [hs]
    rfl
  · intro hns
    cases hd : e.data with
    | str s => exact absurd hd (hns s)
    | null => rfl
    | bool b => rfl
    | num n => rfl
    | arr elems => rfl
    | obj fields => rfl

/-! ### Line-level characterization of the frame (claim C8) -/

theorem splitNl_append {l : List Char} (hl : '\n' ∉ l) (rest : List Char) :
    splitNl (l ++ '\n' :: rest) = l :: splitNl rest := by
  induction l with
  | nil =>
    simp only [List.nil_append, splitNl]
    rcases h : splitNl rest with _ | ⟨x, xs⟩
    · exact absurd h (splitNl_ne_nil rest)
    · simp
  | cons c l ih =>
    have hc : c ≠ '\n' := fun hcc => hl (hcc ▸ List.mem_cons_self c l)
    have hl2 : '\n' ∉ l := fun hm => hl (List.mem_cons_of_mem c hm)
    have e1 : (c :: l) ++ '\n' :: rest = c :: (l ++ '\n' :: rest) := rfl
    rw [e1]
    simp only [splitNl]
    rw [ih hl2]
    simp [hc]

theorem splitNl_lines (pieces : List (List Char)) (h : ∀ p ∈ pieces, '\n' ∉ p) :
    splitNl ((pieces.map (fun p => p ++ ['\n'])).flatten ++ ['\n']) = pieces ++ [[], []] := by
  induction pieces with
  | nil => rfl
  | cons p ps ih =>
    have h1 : ((p :: ps).map (fun p => p ++ ['\n'])).flatten ++ ['\n'] =
        p ++ '\n' :: ((ps.map (fun p => p ++ ['\n'])).flatten ++ ['\n']) := by
      simp [List.append_assoc]
    rw [h1, splitNl_append (h p (List.mem_cons_self p ps)),
      ih (fun q hq => h q (List.mem_cons_of_mem p hq))]
    rfl

theorem strJoin_append (xs ys : List String) :
    strJoin (xs ++ ys) = strJoin xs ++ strJoin ys := by
  induction xs with
  | nil =>
    show strJoin ys = "" ++ strJoin ys
    rw [String.empty_append]
  | cons x xs ih =>
    show x ++ strJoin (xs ++ ys) = x ++ strJoin xs ++ strJoin ys
    rw [ih, string_append_assoc]

theorem data_strJoin (ls : List String) :
    (strJoin ls).data = (ls.map String.data).flatten := by
  induction ls with
  | nil => rfl
  | cons x xs ih =>
    show (x ++ strJoin xs).data = x.data ++ (xs.map String.data).flatten
    rw [String.data_append, ih]

theorem jsSplitNl_joinLines (ls : List String) (h : ∀ l ∈ ls, '\n' ∉ l.data) :
    jsSplitNl (strJoin (ls.map (· ++ "\n")) ++ "\n") = ls ++ ["", ""] := by
  unfold jsSplitNl
  have hdata : (strJoin (ls.map (· ++ "\n")) ++ "\n").data =
      ((ls.map String.data).map (fun p => p ++ ['\n'])).flatten ++ ['\n'] := by
    rw [String.data_append, data_strJoin, List.map_map, List.map_map]
    congr 1
  rw [hdata, splitNl_lines (ls.map String.data) (by
    intro p hp
    obtain ⟨l, hl, rfl⟩ := List.mem_map.mp hp
    exact h l hl)]
  have hmap : ∀ ls2 : List String, (ls2.map String.data).map String.mk = ls2 := by
    intro ls2
    induction ls2 with
    | nil => rfl
    | cons a as ih2 =>
      simp only [List.map_cons]
      rw [ih2]
  rw [List.map_append, hmap]
  rfl

/-- The `id:` line of a frame: present iff the id is present and nonempty. -/
def idLines (i : Option String) : List String :=
  match i with
  | some s => if s = "" then [] else ["id: " ++ s]
  | none => []

/-- The `event:` line: present iff the type is nonempty. -/
def typeLines (t : String) : List String :=
  if t = "" then [] else ["event: " ++ t]

/-- The `retry:` line: present iff the retry is present and nonzero
(`retry = 0` is falsy in JS and the line is omitted). -/
def retryLines (r : Option Int) : List String :=
  match r with
  | some n => if n = 0 then [] else ["retry: " ++ toString n]
  | none => []

/-- All lines of a frame before the terminating blank line. -/
def frameLines (e : SSEEvent) : List String :=
  idLines e.id ++ typeLines e.type ++ retryLines e.retry ++
    (jsSplitNl (eventDataString e.data)).map (fun l => "data: " ++ l)

theorem idHeader_eq_strJoin (i : Option String) :
    idHeader i = strJoin ((idLines i).map (· ++ "\n")) := by
  rcases i with _ | s
  · rfl
  · by_cases hs : s = ""
    · simp [idHeader, idLines, hs, strJoin]
    · simp [idHeader, idLines, hs, strJoin, String.append_empty, string_append_assoc]

theorem typeHeader_eq_strJoin (t : String) :
    typeHeader t = strJoin ((typeLines t).map (· ++ "\n")) := by
  by_cases ht : t = ""
  · simp [typeHeader, typeLines, ht, strJoin]
  · simp [typeHeader, typeLines, ht, strJoin, String.append_empty, string_append_assoc]

theorem retryHeader_eq_strJoin (r : Option Int) :
    retryHeader r = strJoin ((retryLines r).map (· ++ "\n")) := by
  rcases r with _ | n
  · rfl
  · by_cases hn : n = 0
    · simp [retryHeader, retryLines, hn, strJoin]
    · simp [retryHeader, retryLines, hn, strJoin, String.append_empty, string_append_assoc]

theorem dataBlock_eq_strJoin (d : Json) :
    dataBlock d =
      strJoin (((jsSplitNl (eventDataString d)).map (fun l => "data: " ++ l)).map (· ++ "\n")) := by
  unfold dataBlock
  rw [List.map_map]
  rfl

/-- A frame is its lines, each newline-terminated, plus the final newline. -/
theorem formatSSEMessage_eq_frameLines (e : SSEEvent) :
    formatSSEMessage e = strJoin ((frameLines e).map (· ++ "\n")) ++ "\n" := by
  unfold formatSSEMessage frameLines
  rw [idHeader_eq_strJoin, typeHeader_eq_strJoin, retryHeader_eq_strJoin,
    dataBlock_eq_strJoin]
  rw [List.map_append, List.map_append, List.map_append,
    strJoin_append, strJoin_append, strJoin_append]

theorem frameLines_no_nl (e : SSEEvent)
    (hid : '\n' ∉ (e.id.getD "").data)
    (hty : '\n' ∉ e.type.data)
    (hrt : '\n' ∉ (toString (e.retry.getD 0)).data) :
    ∀ l ∈ frameLines e, '\n' ∉ l.data := by
  intro l hl
  unfold frameLines at hl
  have hprefix : ∀ (pre rest : String), '\n' ∉ pre.data → '\n' ∉ rest.data →
      '\n' ∉ (pre ++ rest).data := by
    intro pre rest h1 h2 hmem
    rw [String.data_append] at hmem
    rcases List.mem_append.mp hmem with h3 | h3
    · exact h1 h3
    · exact h2 h3
  rcases List.mem_append.mp hl with hl1 | hl1
  · rcases List.mem_append.mp hl1 with hl2 | hl2
    · rcases List.mem_append.mp hl2 with hl3 | hl3
      · rcases hi : e.id with _ | s
        · rw [hi] at hl3
          simp [idLines] at hl3
        · rw [hi] at hl3 hid
          simp only [Option.getD_some] at hid
          simp only [idLines] at hl3
          by_cases hs : s = ""
          · simp [hs] at hl3
          · rw [if_neg hs] at hl3
            rw [List.mem_singleton.mp hl3]
            exact hprefix "id: " s (by decide) hid
      · rw [typeLines] at hl3
        by_cases ht : e.type = ""
        · simp [ht] at hl3
        · rw [if_neg ht] at hl3
          rw [List.mem_singleton.mp hl3]
          exact hprefix "event: " e.type (by decide) hty
    · rcases hr : e.retry with _ | n
      · rw [hr] at hl2
        simp [retryLines] at hl2
      · rw [hr] at hl2 hrt
        simp only [Option.getD_some] at hrt
        simp only [retryLines] at hl2
        by_cases hn : n = 0
        · simp [hn] at hl2
        · rw [if_neg hn] at hl2
          rw [List.mem_singleton.mp hl2]
          exact hprefix "retry: " (toString n) (by decide) hrt
  · obtain ⟨seg, hseg, rfl⟩ := List.mem_map.mp hl1
    unfold jsSplitNl at hseg
    obtain ⟨cs, hcs, rfl⟩ := List.mem_map.mp hseg
    refine hprefix "data: " (String.mk cs) (by decide) ?_
    exact not_nl_mem_splitNl _ cs hcs

/-- C8 counterexample: an event carrying `retry = 0` encodes to a frame with
no `retry:` line at all (0 is falsy in JS), contradicting "including
retry = 0"; the whole frame is just the `event:` line and the data. -/
theorem claim8_counterexample :
    formatSSEMessage { type := "t", data := Json.str "d", id := none, retry := some 0 } =
      "event: t\ndata: d\n\n" ∧
    "retry: 0" ∉
      jsSplitNl (formatSSEMessage
        { type := "t", data := Json.str "d", id := none, retry := some 0 }) :=
  ⟨rfl, by decide⟩

/-- C8 amended: in the encoded frame each header line is present iff its
source value is present *and truthy*: the `id:` line iff the id is present
and nonempty, the `event:` line iff the type is nonempty, and the `retry:`
line iff a retry value is present and nonzero — an event with `retry = 0`
has its `retry:` line omitted.  (Stated for events whose header texts
contain no newline, as a header value with a newline would corrupt the
framing.) -/
theorem claim8_header_fields (e : SSEEvent)
    (hid : '\n' ∉ (e.id.getD "").data)
    (hty : '\n' ∉ e.type.data)
    (hrt : '\n' ∉ (toString (e.retry.getD 0)).data) :
    jsSplitNl (formatSSEMessage e) =
      idLines e.id ++ typeLines e.type ++ retryLines e.retry ++
        (jsSplitNl (eventDataString e.data)).map (fun l => "data: " ++ l) ++ ["", ""] := by
  rw [formatSSEMessage_eq_frameLines,
    jsSplitNl_joinLines _ (frameLines_no_nl e hid hty hrt)]
  rfl

/-- Witness for C8 (amended) at a concrete event with id, type, retry and
single-line data. -/
theorem claim8_header_fields_witness :
    '\n' ∉ (((some "x" : Option String)).getD "").data ∧
    '\n' ∉ ("t" : String).data ∧
    '\n' ∉ (toString (((some 7 : Option Int)).getD 0)).data ∧
    jsSplitNl (formatSSEMessage
        { type := "t", data := Json.str "d", id := some "x", retry := some 7 }) =
      idLines (some "x") ++ typeLines "t" ++ retryLines (some 7) ++
        (jsSplitNl (eventDataString (Json.str "d"))).map (fun l => "data: " ++ l) ++
        ["", ""] :=
  ⟨by decide, by decide, by decide,
   claim8_header_fields
     { type := "t", data := Json.str "d", id := some "x", retry := some 7 }
     (by decide) (by decide) (by decide)⟩

/-! ### Further helpers for the per-operation claims -/

instance decidableInvLists (cs : List SSEClient) (uc : List (String × List String)) :
    Decidable (InvLists cs uc) := by
  unfold InvLists
  exact inferInstance

instance decidableWFlists (cs : List SSEClient) (uc : List (String × List String)) :
    Decidable (WFlists cs uc) := by
  unfold WFlists
  exact inferInstance

instance decidableWF (s : ManagerState) : Decidable (WF s) := by
  unfold WF
  exact inferInstance

instance decidableRegistryInvariant (s : ManagerState) : Decidable (RegistryInvariant s) := by
  unfold RegistryInvariant
  exact inferInstance

/-- Whether a write to the registered connection `cid` would currently be
accepted by its sink (false for an unknown id). -/
def acceptsAt (s : ManagerState) (cid : String) : Bool :=
  match lookupClient s.clients cid with
  | some c => c.controller.writeOk c.writeCount
  | none => false

/-- The connections belonging to user `u`. -/
def userClientsOf (s : ManagerState) (u : String) : List SSEClient :=
  s.clients.filter (fun c => decide (c.userId = some u))

theorem sendToClient_of_lookup_ok {s : ManagerState} {cid : String} {c : SSEClient}
    (hl : lookupClient s.clients cid = some c)
    (hw : c.controller.writeOk c.writeCount = true) (e : SSEEvent) :
    sendToClient s cid e =
      (true,
        { s with
          clients := setClient s.clients cid { c with writeCount := c.writeCount + 1 },
          sent := s.sent ++ [(cid, e)] }) := by
  simp only [sendToClient, hl]
  rw [if_pos hw]

theorem sendToClient_of_lookup_fail {s : ManagerState} {cid : String} {c : SSEClient}
    (hl : lookupClient s.clients cid = some c)
    (hw : c.controller.writeOk c.writeCount = false) (e : SSEEvent) :
    sendToClient s cid e = (false, removeClient s cid) := by
  simp only [sendToClient, hl]
  rw [if_neg (by rw [hw]; exact Bool.false_ne_true)]

theorem sendToClient_of_lookup_none {s : ManagerState} {cid : String}
    (hl : lookupClient s.clients cid = none) (e : SSEEvent) :
    sendToClient s cid e = (false, s) := by
  simp only [sendToClient, hl]

theorem removeClient_sent (s : ManagerState) (cid : String) :
    (removeClient s cid).sent = s.sent := by
  rcases hl : lookupClient s.clients cid with _ | c
  · simp only [removeClient, hl]
  · simp only [removeClient, hl]

theorem lookupClient_removeClient_ne {s : ManagerState} {cid x : String} (hx : x ≠ cid) :
    lookupClient (removeClient s cid).clients x = lookupClient s.clients x := by
  rcases hl : lookupClient s.clients cid with _ | c
  · simp only [removeClient, hl]
  · simp only [removeClient, hl]
    exact lookupClient_deleteClient_ne hx

theorem lookupClient_removeClient_self {s : ManagerState} (cid : String)
    (hnd : (s.clients.map (·.id)).Nodup) :
    lookupClient (removeClient s cid).clients cid = none := by
  rcases hl : lookupClient s.clients cid with _ | c
  · simp only [removeClient, hl]
  · simp only [removeClient, hl]
    exact lookupClient_deleteClient_self hnd

theorem length_deleteClient_of_lookup {l : List SSEClient} {cid : String} {c : SSEClient}
    (hl : lookupClient l cid = some c) :
    (deleteClient l cid).length = l.length - 1 := by
  induction l with
  | nil => simp [lookupClient] at hl
  | cons y ys ih =>
    simp only [lookupClient] at hl
    simp only [deleteClient]
    by_cases hy : y.id = cid
    · rw [if_pos hy]
      simp
    · rw [if_neg hy] at hl
      rw [if_neg hy]
      simp only [List.length_cons, ih hl]
      have : 1 ≤ ys.length := by
        obtain ⟨hm, _⟩ := lookupClient_eq_some hl
        exact List.length_pos.mpr (List.ne_nil_of_mem hm)
      omega

theorem length_removeClient_of_lookup {s : ManagerState} {cid : String} {c : SSEClient}
    (hl : lookupClient s.clients cid = some c) :
    (removeClient s cid).clients.length = s.clients.length - 1 := by
  simp only [removeClient, hl]
  exact length_deleteClient_of_lookup hl

theorem removeClient_of_lookup_none {s : ManagerState} {cid : String}
    (hl : lookupClient s.clients cid = none) : removeClient s cid = s := by
  simp only [removeClient, hl]

/-- The user-index update performed by `addClient`. -/
def indexAfterAdd (uc : List (String × List String)) (uid : Option String)
    (cid : String) : List (String × List String) :=
  match uid with
  | some u => indexAdd uc u cid
  | none => uc

/-- What a successful `addClient` produces: the new record overwrites the
slot for `cid`, the id is indexed when a `userId` is given, and the
`connection` event is pushed through `sendToClient`; and the capacity check
must have passed. -/
theorem addClient_ok_eq {cfg : SSEManagerConfig} {s : ManagerState} {cid : String}
    {ctrl : Sink} {uid sid : Option String} {now : Nat} {s' : ManagerState}
    (hok : addClient cfg s cid ctrl uid sid now = Except.ok s') :
    s' = (sendToClient
        { s with
          clients := setClient s.clients cid
            { id := cid, userId := uid, sessionId := sid, controller := ctrl,
              lastPing := now, writeCount := 0 },
          userConnections := indexAfterAdd s.userConnections uid cid }
        cid (connectionEvent cid now)).2 ∧
      ¬ cfg.maxConnections ≤ s.clients.length := by
  unfold addClient at hok
  by_cases hcap : cfg.maxConnections ≤ s.clients.length
  · rw [if_pos hcap] at hok
    exact Except.noConfusion hok
  · rw [if_neg hcap] at hok
    refine ⟨?_, hcap⟩
    rcases uid with _ | u
    · simp only at hok
      exact (Except.ok.inj hok).symm
    · simp only at hok
      exact (Except.ok.inj hok).symm

theorem sendToClient_sent_of_ok {s : ManagerState} {cid : String} {c : SSEClient}
    (hl : lookupClient s.clients cid = some c)
    (hw : c.controller.writeOk c.writeCount = true) (e : SSEEvent) :
    (sendToClient s cid e).2.sent = s.sent ++ [(cid, e)] := by
  rw [sendToClient_of_lookup_ok hl hw]

/-- C6: `removeClient` on an unknown id is a no-op (hence the operation is
idempotent); on a well-formed registry the removed id is afterwards absent
from the connection map and from every user index set; and the sink close
is attempted with its outcome swallowed — the close is logged and removal
completes whatever `closeOk` is, since the result never reads it. -/
theorem claim6_removeClient (s : ManagerState) (cid : String) :
    (lookupClient s.clients cid = none → removeClient s cid = s) ∧
    (WF s →
      hasClient (removeClient s cid) cid = false ∧
      (∀ p ∈ (removeClient s cid).userConnections, cid ∉ p.2) ∧
      removeClient (removeClient s cid) cid = removeClient s cid) ∧
    (∀ client, lookupClient s.clients cid = some client →
      (removeClient s cid).closedLog = s.closedLog ++ [cid]) := by
  refine ⟨fun hl => removeClient_of_lookup_none hl, ?_, ?_⟩
  · intro hWF
    obtain ⟨hnc, hnu, hns, hne, hsound, hcomp⟩ := hWF
    have habs : hasClient (removeClient s cid) cid = false := by
      unfold hasClient
      rw [lookupClient_removeClient_self cid hnc]
      rfl
    refine ⟨habs, ?_, removeClient_of_lookup_none (lookupClient_removeClient_self cid hnc)⟩
    intro p hp hmem
    rcases hl : lookupClient s.clients cid with _ | client
    · rw [removeClient_of_lookup_none hl] at hp
      obtain ⟨c, hc, hcid2, _⟩ := hsound p hp cid hmem
      have h2 := lookupClient_of_mem hnc hc
      rw [hcid2] at h2
      exact Option.noConfusion (h2.symm.trans hl)
    · obtain ⟨hcm, hcid⟩ := lookupClient_eq_some hl
      rcases hu : client.userId with _ | uid
      · rw [show (removeClient s cid).userConnections = s.userConnections from by
          simp only [removeClient, hl, hu]] at hp
        obtain ⟨c, hc, hcid2, huid2⟩ := hsound p hp cid hmem
        have hce : c = client := eq_of_mem_of_id_eq hnc hc hcm (hcid2.trans hcid.symm)
        rw [hce, hu] at huid2
        exact Option.noConfusion huid2
      · rw [show (removeClient s cid).userConnections =
            indexRemove s.userConnections uid cid from by
          simp only [removeClient, hl, hu]] at hp
        rcases mem_indexRemove_cases hnu hp with ⟨hp2, hpne⟩ | ⟨ids, hm, hpe, _⟩
        · obtain ⟨c, hc, hcid2, huid2⟩ := hsound p hp2 cid hmem
          have hce : c = client := eq_of_mem_of_id_eq hnc hc hcm (hcid2.trans hcid.symm)
          rw [hce, hu] at huid2
          exact hpne (Option.some.inj huid2).symm
        · rw [hpe] at hmem
          exact not_mem_removeId (hns (uid, ids) hm) hmem
  · intro client hl
    simp only [removeClient, hl]

/-- A sink whose close throws (write still accepted). -/
def badCloseSink : Sink := { writeOk := fun _ => true, closeOk := false }

/-- A registry with two clients of the same user, the first of which has a
sink whose close throws. -/
def c6State : ManagerState :=
  applyOps defaultConfig initialState
    [Op.add "c1" badCloseSink (some "u1") none 0,
     Op.add "c2" probeSink (some "u1") none 1]

/-- The record registered for `c1` in `c6State` (the initial `connection`
event bumped its write count to one). -/
def c6client : SSEClient :=
  { id := "c1", userId := some "u1", sessionId := none, controller := badCloseSink,
    lastPing := 0, writeCount := 1 }

/-- Witness for C6: removing an unknown id is a no-op; removing `c1` (whose
sink close throws) still completes, logs the close attempt, and scrubs both
structures. -/
theorem claim6_removeClient_witness :
    (lookupClient c6State.clients "ghost" = none ∧
      removeClient c6State "ghost" = c6State) ∧
    (WF c6State ∧
      hasClient (removeClient c6State "c1") "c1" = false ∧
      (∀ p ∈ (removeClient c6State "c1").userConnections, "c1" ∉ p.2) ∧
      removeClient (removeClient c6State "c1") "c1" = removeClient c6State "c1") ∧
    (lookupClient c6State.clients "c1" = some c6client ∧
      (removeClient c6State "c1").closedLog = c6State.closedLog ++ ["c1"]) := by
  refine ⟨⟨rfl, (claim6_removeClient c6State "ghost").1 rfl⟩, ⟨by decide, ?_⟩,
    rfl, (claim6_removeClient c6State "c1").2.2 c6client rfl⟩
  exact (claim6_removeClient c6State "c1").2.1 (by decide)

/-- Field lookup in a JSON object (`none` on non-objects). -/
def lookupField : Json → String → Option Json
  | Json.obj fields, k => lookupPair fields k
  | _, _ => none
where lookupPair : List (String × Json) → String → Option Json
  | [], _ => none
  | (k', v) :: rest, k => if k' = k then some v else lookupPair rest k

/-- The state after one successful `addClient` on the empty registry. -/
def c7State : ManagerState :=
  applyOps defaultConfig initialState [Op.add "c1" probeSink (some "u1") none 5]

/-- C7 counterexample: the one event sent by a successful `addClient` has
its data keyed `status` / `clientId` / `timestamp` — there is no field
named `id`, contradicting the claim that the connection's id is sent under
the field name `id`. -/
theorem claim7_counterexample :
    addClient defaultConfig initialState "c1" probeSink (some "u1") none 5 =
      Except.ok c7State ∧
    c7State.sent = [("c1", connectionEvent "c1" 5)] ∧
    (connectionEvent "c1" 5).type = "connection" ∧
    lookupField (connectionEvent "c1" 5).data "id" = none ∧
    lookupField (connectionEvent "c1" 5).data "clientId" = some (Json.str "c1") :=
  ⟨rfl, rfl, rfl, rfl, rfl⟩

/-- C7 amended: every successful `addClient` whose new sink accepts the
initial write sends exactly one event to the new connection — of type
`connection`, with data holding `status = "connected"`, the connection's id
under the field name `clientId` (not `id`), and the timestamp. -/
theorem claim7_connection_event {cfg : SSEManagerConfig} {s : ManagerState}
    {cid : String} {ctrl : Sink} {uid sid : Option String} {now : Nat}
    {s' : ManagerState}
    (hok : addClient cfg s cid ctrl uid sid now = Except.ok s')
    (hw : ctrl.writeOk 0 = true) :
    s'.sent = s.sent ++ [(cid, connectionEvent cid now)] ∧
    (connectionEvent cid now).type = "connection" ∧
    lookupField (connectionEvent cid now).data "status" = some (Json.str "connected") ∧
    lookupField (connectionEvent cid now).data "clientId" = some (Json.str cid) ∧
    lookupField (connectionEvent cid now).data "timestamp" =
      some (Json.num (Int.ofNat now)) := by
  obtain ⟨hs', hcap⟩ := addClient_ok_eq hok
  refine ⟨?_, rfl, rfl, rfl, rfl⟩
  rw [hs']
  have hl : lookupClient
      (setClient s.clients cid
        { id := cid, userId := uid, sessionId := sid, controller := ctrl,
          lastPing := now, writeCount := 0 }) cid =
      some { id := cid, userId := uid, sessionId := sid, controller := ctrl,
             lastPing := now, writeCount := 0 } :=
    lookupClient_setClient_self rfl
  rw [sendToClient_sent_of_ok hl hw]

/-- C10: calling `addClient` below capacity with an id that is already
registered does not fail: the old record is overwritten in place, the old
record's sink is never closed (the close log is untouched), and the old
user's index entry for that id is not removed — with differing old and new
userIds the id stays in the old user's set while the connection map records
the new userId. -/
theorem claim10_duplicate_add {cfg : SSEManagerConfig} {s : ManagerState}
    {cid : String} {old : SSEClient} {ctrl : Sink} {uOld uNew : String}
    {sid : Option String} {now : Nat}
    (hWF : WF s)
    (hcap : s.clients.length < cfg.maxConnections)
    (hl : lookupClient s.clients cid = some old)
    (hold : old.userId = some uOld)
    (hneq : uNew ≠ uOld)
    (hw : ctrl.writeOk 0 = true) :
    ∃ s', addClient cfg s cid ctrl (some uNew) sid now = Except.ok s' ∧
      s'.closedLog = s.closedLog ∧
      (∃ c', lookupClient s'.clients cid = some c' ∧ c'.userId = some uNew) ∧
      (∃ ids, lookupIndex s'.userConnections uOld = some ids ∧ cid ∈ ids) := by
  obtain ⟨hnc, hnu, hns, hne2, hsound, hcomp⟩ := hWF
  obtain ⟨hom, hoid⟩ := lookupClient_eq_some hl
  obtain ⟨p, hp, hp1, hpm⟩ := hcomp old hom uOld (by rw [hold]; simp)
  have hlookOld : lookupIndex s.userConnections uOld = some p.2 := by
    apply lookupIndex_of_mem hnu
    rw [← hp1]
    exact hp
  have hl2 : lookupClient
      (setClient s.clients cid
        { id := cid, userId := some uNew, sessionId := sid, controller := ctrl,
          lastPing := now, writeCount := 0 }) cid =
      some { id := cid, userId := some uNew, sessionId := sid, controller := ctrl,
             lastPing := now, writeCount := 0 } :=
    lookupClient_setClient_self rfl
  refine ⟨(sendToClient
      { s with
        clients := setClient s.clients cid
          { id := cid, userId := some uNew, sessionId := sid, controller := ctrl,
            lastPing := now, writeCount := 0 },
        userConnections := indexAdd s.userConnections uNew cid }
      cid (connectionEvent cid now)).2, ?_, ?_, ?_, ?_⟩
  · unfold addClient
    rw [if_neg (by omega)]
  · rw [sendToClient_of_lookup_ok hl2 hw]
  · rw [sendToClient_of_lookup_ok hl2 hw]
    exact ⟨_, lookupClient_setClient_self rfl, rfl⟩
  · rw [sendToClient_of_lookup_ok hl2 hw]
    refine ⟨p.2, ?_, ?_⟩
    · show lookupIndex (indexAdd s.userConnections uNew cid) uOld = some p.2
      rw [lookupIndex_indexAdd]
      rw [if_neg (fun hcon => hneq hcon.symm)]
      exact hlookOld
    · rw [← hoid]
      exact hpm

/-- The registry after one `addClient` for user `alice`. -/
def c10State : ManagerState :=
  applyOps defaultConfig initialState [Op.add "c1" probeSink (some "alice") none 0]

/-- The record registered for `c1` in `c10State`. -/
def c10old : SSEClient :=
  { id := "c1", userId := some "alice", sessionId := none, controller := probeSink,
    lastPing := 0, writeCount := 1 }

/-- Witness for C10: re-adding `c1` for `bob` leaves `c1` in `alice`'s index
set while the connection record carries `bob`. -/
theorem claim10_duplicate_add_witness :
    WF c10State ∧
    c10State.clients.length < defaultConfig.maxConnections ∧
    lookupClient c10State.clients "c1" = some c10old ∧
    c10old.userId = some "alice" ∧
    ("bob" : String) ≠ "alice" ∧
    probeSink.writeOk 0 = true ∧
    (∃ s', addClient defaultConfig c10State "c1" probeSink (some "bob") none 9 =
        Except.ok s' ∧
      s'.closedLog = c10State.closedLog ∧
      (∃ c', lookupClient s'.clients "c1" = some c' ∧ c'.userId = some "bob") ∧
      (∃ ids, lookupIndex s'.userConnections "alice" = some ids ∧ "c1" ∈ ids)) :=
  ⟨by decide, by decide, rfl, rfl, by decide, rfl,
   claim10_duplicate_add (by decide) (by decide) rfl rfl (by decide) rfl⟩

/-! ### The delivery round of `sendToUser`/`broadcast` (claim C3) -/

theorem sendRound_fold_acc (e : SSEEvent) (ids : List String) :
    ∀ (n : Nat) (s : ManagerState),
      ids.foldl (fun acc cid =>
          let r := sendToClient acc.2 cid e
          (if r.1 then acc.1 + 1 else acc.1, r.2)) (n, s) =
        (n + (sendRound s ids e).1, (sendRound s ids e).2) := by
  induction ids with
  | nil =>
    intro n s
    show (n, s) = (n + (0 : Nat), s)
    rw [Nat.add_zero]
  | cons cid rest ih =>
    intro n s
    rw [List.foldl_cons]
    show rest.foldl (fun acc cid =>
        let r := sendToClient acc.2 cid e
        (if r.1 then acc.1 + 1 else acc.1, r.2))
        ((if (sendToClient s cid e).1 then n + 1 else n), (sendToClient s cid e).2) = _
    rw [ih]
    have hR : sendRound s (cid :: rest) e =
        ((if (sendToClient s cid e).1 then 0 + 1 else 0) +
            (sendRound (sendToClient s cid e).2 rest e).1,
          (sendRound (sendToClient s cid e).2 rest e).2) := by
      show (cid :: rest).foldl (fun acc cid =>
          let r := sendToClient acc.2 cid e
          (if r.1 then acc.1 + 1 else acc.1, r.2)) (0, s) = _
      rw [List.foldl_cons]
      show rest.foldl (fun acc cid =>
          let r := sendToClient acc.2 cid e
          (if r.1 then acc.1 + 1 else acc.1, r.2))
          ((if (sendToClient s cid e).1 then 0 + 1 else 0), (sendToClient s cid e).2) = _
      exact ih _ _
    rw [hR]
    by_cases hok : (sendToClient s cid e).1
    · simp only [if_pos hok, Prod.mk.injEq]
      exact ⟨by omega, trivial⟩
    · simp only [if_neg hok, Prod.mk.injEq]
      exact ⟨by omega, trivial⟩

theorem sendRound_cons (s : ManagerState) (cid : String) (rest : List String)
    (e : SSEEvent) :
    sendRound s (cid :: rest) e =
      ((if (sendToClient s cid e).1 then 1 else 0) +
          (sendRound (sendToClient s cid e).2 rest e).1,
        (sendRound (sendToClient s cid e).2 rest e).2) := by
  show (cid :: rest).foldl (fun acc cid =>
      let r := sendToClient acc.2 cid e
      (if r.1 then acc.1 + 1 else acc.1, r.2)) (0, s) = _
  rw [List.foldl_cons]
  show rest.foldl (fun acc cid =>
      let r := sendToClient acc.2 cid e
      (if r.1 then acc.1 + 1 else acc.1, r.2))
      ((if (sendToClient s cid e).1 then 0 + 1 else 0), (sendToClient s cid e).2) = _
  rw [sendRound_fold_acc]

/-- Full characterization of a delivery round over distinct registered ids:
the returned count is the number of targets whose sink accepts; targets
with a throwing sink are gone afterwards; untargeted ids are untouched; the
delivery log gains exactly one entry per accepting target, in order; and
the connection count drops by the number of throwing targets. -/
theorem sendRound_spec (e : SSEEvent) (u : String) (ids : List String) :
    ∀ (s : ManagerState), WF s → ids.Nodup →
      (∀ cid ∈ ids, ∃ c, lookupClient s.clients cid = some c ∧ c.userId = some u) →
      (sendRound s ids e).1 = ids.countP (fun cid => acceptsAt s cid) ∧
      (∀ cid ∈ ids, acceptsAt s cid = false →
        lookupClient (sendRound s ids e).2.clients cid = none) ∧
      (∀ x, x ∉ ids →
        lookupClient (sendRound s ids e).2.clients x = lookupClient s.clients x) ∧
      (sendRound s ids e).2.sent =
        s.sent ++ (ids.filter (fun cid => acceptsAt s cid)).map (fun cid => (cid, e)) ∧
      (sendRound s ids e).2.clients.length =
        s.clients.length - ids.countP (fun cid => !acceptsAt s cid) := by
  induction ids with
  | nil =>
    intro s hWF hnd hsub
    refine ⟨rfl, by simp, fun x hx => rfl, by simp [sendRound], by simp [sendRound]⟩
  | cons cid rest ih =>
    intro s hWF hnd hsub
    obtain ⟨c, hlc, hcu⟩ := hsub cid (List.mem_cons_self cid rest)
    simp only [List.nodup_cons] at hnd
    obtain ⟨hcidrest, hndrest⟩ := hnd
    have hWF1 : WF (sendToClient s cid e).2 := WF_sendToClient hWF cid e
    have haccdef : acceptsAt s cid = c.controller.writeOk c.writeCount := by
      unfold acceptsAt
      rw [hlc]
    rcases hacc : c.controller.writeOk c.writeCount with _ | _
    · -- the sink throws: the client is evicted
      have hfail := sendToClient_of_lookup_fail hlc hacc e
      have hfst : (sendToClient s cid e).1 = false := by rw [hfail]
      have hlook : ∀ x, x ≠ cid →
          lookupClient (sendToClient s cid e).2.clients x = lookupClient s.clients x := by
        intro x hx
        rw [hfail]
        exact lookupClient_removeClient_ne hx
      have hlookself : lookupClient (sendToClient s cid e).2.clients cid = none := by
        rw [hfail]
        exact lookupClient_removeClient_self cid hWF.1
      have hsent1 : (sendToClient s cid e).2.sent = s.sent := by
        rw [hfail]
        exact removeClient_sent s cid
      have hlen1 : (sendToClient s cid e).2.clients.length = s.clients.length - 1 := by
        rw [hfail]
        exact length_removeClient_of_lookup hlc
      have hsub1 : ∀ x ∈ rest, ∃ c', lookupClient (sendToClient s cid e).2.clients x =
          some c' ∧ c'.userId = some u := by
        intro x hx
        obtain ⟨c', hc', hcu'⟩ := hsub x (List.mem_cons_of_mem cid hx)
        exact ⟨c', by rw [hlook x (fun hh => hcidrest (hh ▸ hx))]; exact hc', hcu'⟩
      have haccsame : ∀ x ∈ rest, acceptsAt (sendToClient s cid e).2 x = acceptsAt s x := by
        intro x hx
        unfold acceptsAt
        rw [hlook x (fun hh => hcidrest (hh ▸ hx))]
      obtain ⟨ih1, ih2, ih3, ih4, ih5⟩ := ih (sendToClient s cid e).2 hWF1 hndrest hsub1
      have hcount_pos : rest.countP (fun x => acceptsAt (sendToClient s cid e).2 x) =
          rest.countP (fun x => acceptsAt s x) :=
        List.countP_congr (fun x hx => by rw [haccsame x hx])
      have hcount_not : rest.countP (fun x => !acceptsAt (sendToClient s cid e).2 x) =
          rest.countP (fun x => !acceptsAt s x) :=
        List.countP_congr (fun x hx => by rw [haccsame x hx])
      have hfilter_pos : rest.filter (fun x => acceptsAt (sendToClient s cid e).2 x) =
          rest.filter (fun x => acceptsAt s x) :=
        List.filter_congr (fun x hx => by rw [haccsame x hx])
      rw [sendRound_cons]
      have haccfalse : acceptsAt s cid = false := by rw [haccdef, hacc]
      refine ⟨?_, ?_, ?_, ?_, ?_⟩
      · show (if (sendToClient s cid e).1 then 1 else 0) +
            (sendRound (sendToClient s cid e).2 rest e).1 = _
        rw [hfst, ih1, hcount_pos, List.countP_cons]
        simp [haccfalse]
      · intro x hx hxfalse
        rcases List.mem_cons.mp hx with rfl | hx2
        · rw [ih3 x hcidrest]
          exact hlookself
        · exact ih2 x hx2 (by rw [haccsame x hx2]; exact hxfalse)
      · intro x hx
        have hx1 : x ≠ cid := fun hh => hx (hh ▸ List.mem_cons_self cid rest)
        have hx2 : x ∉ rest := fun hh => hx (List.mem_cons_of_mem cid hh)
        rw [ih3 x hx2]
        exact hlook x hx1
      · show (sendRound (sendToClient s cid e).2 rest e).2.sent = _
        rw [ih4, hsent1, hfilter_pos, List.filter_cons]
        simp [haccfalse]
      · show (sendRound (sendToClient s cid e).2 rest e).2.clients.length = _
        rw [ih5, hlen1, hcount_not, List.countP_cons]
        simp only [haccfalse, Bool.not_false, if_pos]
        omega
    · -- the sink accepts
      have hok := sendToClient_of_lookup_ok hlc hacc e
      have hfst : (sendToClient s cid e).1 = true := by rw [hok]
      have hbumpid : ({ c with writeCount := c.writeCount + 1 } : SSEClient).id = cid :=
        (lookupClient_eq_some hlc).2
      have hlook : ∀ x, lookupClient (sendToClient s cid e).2.clients x =
          if x = cid then some { c with writeCount := c.writeCount + 1 }
          else lookupClient s.clients x := by
        intro x
        rw [hok]
        exact lookupClient_setClient hbumpid x
      have hsent1 : (sendToClient s cid e).2.sent = s.sent ++ [(cid, e)] := by rw [hok]
      have hlen1 : (sendToClient s cid e).2.clients.length = s.clients.length := by
        rw [hok]
        exact length_setClient_of_lookup hlc
      have hsub1 : ∀ x ∈ rest, ∃ c', lookupClient (sendToClient s cid e).2.clients x =
          some c' ∧ c'.userId = some u := by
        intro x hx
        obtain ⟨c', hc', hcu'⟩ := hsub x (List.mem_cons_of_mem cid hx)
        refine ⟨c', ?_, hcu'⟩
        rw [hlook x, if_neg (fun hh => hcidrest (by rw [← hh]; exact hx))]
        exact hc'
      have haccsame : ∀ x ∈ rest, acceptsAt (sendToClient s cid e).2 x = acceptsAt s x := by
        intro x hx
        unfold acceptsAt
        rw [hlook x, if_neg (fun hh => hcidrest (by rw [← hh]; exact hx))]
      obtain ⟨ih1, ih2, ih3, ih4, ih5⟩ := ih (sendToClient s cid e).2 hWF1 hndrest hsub1
      have hcount_pos : rest.countP (fun x => acceptsAt (sendToClient s cid e).2 x) =
          rest.countP (fun x => acceptsAt s x) :=
        List.countP_congr (fun x hx => by rw [haccsame x hx])
      have hcount_not : rest.countP (fun x => !acceptsAt (sendToClient s cid e).2 x) =
          rest.countP (fun x => !acceptsAt s x) :=
        List.countP_congr (fun x hx => by rw [haccsame x hx])
      have hfilter_pos : rest.filter (fun x => acceptsAt (sendToClient s cid e).2 x) =
          rest.filter (fun x => acceptsAt s x) :=
        List.filter_congr (fun x hx => by rw [haccsame x hx])
      rw [sendRound_cons]
      have hacctrue : acceptsAt s cid = true := by rw [haccdef, hacc]
      refine ⟨?_, ?_, ?_, ?_, ?_⟩
      · show (if (sendToClient s cid e).1 then 1 else 0) +
            (sendRound (sendToClient s cid e).2 rest e).1 = _
        rw [hfst, ih1, hcount_pos, List.countP_cons]
        simp [hacctrue]
        omega
      · intro x hx hxfalse
        rcases List.mem_cons.mp hx with rfl | hx2
        · rw [hacctrue] at hxfalse
          exact Bool.noConfusion hxfalse
        · exact ih2 x hx2 (by rw [haccsame x hx2]; exact hxfalse)
      · intro x hx
        have hx1 : x ≠ cid := fun hh => hx (hh ▸ List.mem_cons_self cid rest)
        have hx2 : x ∉ rest := fun hh => hx (List.mem_cons_of_mem cid hh)
        rw [ih3 x hx2, hlook x, if_neg hx1]
      · show (sendRound (sendToClient s cid e).2 rest e).2.sent = _
        rw [ih4, hsent1, hfilter_pos, List.filter_cons]
        simp [hacctrue, List.append_assoc]
      · show (sendRound (sendToClient s cid e).2 rest e).2.clients.length = _
        rw [ih5, hlen1, hcount_not, List.countP_cons]
        simp [hacctrue]

theorem mem_userClientsOf {s : ManagerState} {u : String} {c : SSEClient} :
    c ∈ userClientsOf s u ↔ c ∈ s.clients ∧ c.userId = some u := by
  unfold userClientsOf
  rw [List.mem_filter]
  simp

theorem nodup_ids_userClientsOf {s : ManagerState} (hnc : (s.clients.map (·.id)).Nodup)
    (u : String) : ((userClientsOf s u).map (·.id)).Nodup :=
  ((List.filter_sublist s.clients).map (·.id)).nodup hnc

/-- Under well-formedness, the index set for `u` lists exactly the ids of
`u`'s connections (as a permutation). -/
theorem index_perm_userClients {s : ManagerState} (hWF : WF s) {u : String}
    {ids : List String} (hli : lookupIndex s.userConnections u = some ids) :
    ids.Perm ((userClientsOf s u).map (·.id)) := by
  obtain ⟨hnc, hnu, hns, hne, hsound, hcomp⟩ := hWF
  rw [List.perm_ext_iff_of_nodup (hns (u, ids) (lookupIndex_eq_some hli))
    (nodup_ids_userClientsOf hnc u)]
  intro a
  constructor
  · intro ha
    obtain ⟨c, hc, hcid, hcu⟩ := hsound (u, ids) (lookupIndex_eq_some hli) a ha
    refine List.mem_map.mpr ⟨c, mem_userClientsOf.mpr ⟨hc, hcu⟩, hcid⟩
  · intro ha
    obtain ⟨c, hc, hcid⟩ := List.mem_map.mp ha
    obtain ⟨hcm, hcu⟩ := mem_userClientsOf.mp hc
    obtain ⟨p, hp, hp1, hpm⟩ := hcomp c hcm u (by rw [hcu]; simp)
    have hli2 : lookupIndex s.userConnections u = some p.2 := by
      apply lookupIndex_of_mem hnu
      rw [← hp1]
      exact hp
    have hids : p.2 = ids := Option.some.inj (hli2.symm.trans hli)
    rw [← hcid, ← hids]
    exact hpm

theorem acceptsAt_of_mem {s : ManagerState} (hnc : (s.clients.map (·.id)).Nodup)
    {c : SSEClient} (hc : c ∈ s.clients) :
    acceptsAt s c.id = c.controller.writeOk c.writeCount := by
  unfold acceptsAt
  rw [lookupClient_of_mem hnc hc]

/-- C3: `sendToUser` returns exactly the number of the user's connections
whose sink accepted the write; every connection whose sink threw is evicted
(and excluded from the count); the delivery log gains the event once per
accepting connection of that user and nothing else; other users'
connections are untouched; `getStats` afterwards reports one connection
fewer per throwing sink; and a user with no connections yields `(0, s)`. -/
theorem claim3_sendToUser {s : ManagerState} (hWF : WF s) (u : String) (e : SSEEvent) :
    (sendToUser s u e).1 =
        (userClientsOf s u).countP (fun c => c.controller.writeOk c.writeCount) ∧
    (∀ c ∈ userClientsOf s u, c.controller.writeOk c.writeCount = false →
        hasClient (sendToUser s u e).2 c.id = false) ∧
    (∃ tail, (sendToUser s u e).2.sent = s.sent ++ tail ∧
        (∀ c ∈ userClientsOf s u, c.controller.writeOk c.writeCount = true →
          (c.id, e) ∈ tail) ∧
        (∀ q ∈ tail, q.2 = e ∧ ∃ c ∈ userClientsOf s u, c.id = q.1 ∧
          c.controller.writeOk c.writeCount = true)) ∧
    (∀ c ∈ s.clients, c.userId ≠ some u →
        lookupClient (sendToUser s u e).2.clients c.id = some c) ∧
    ((getStats (sendToUser s u e).2).1 =
        (getStats s).1 -
          (userClientsOf s u).countP (fun c => !c.controller.writeOk c.writeCount)) ∧
    (userClientsOf s u = [] → sendToUser s u e = (0, s)) := by
  have hnc := hWF.1
  rcases hli : lookupIndex s.userConnections u with _ | ids
  · -- no index entry: the user has no connections
    have hucl : userClientsOf s u = [] := by
      rcases hcl : userClientsOf s u with _ | ⟨c, cs⟩
      · rfl
      · obtain ⟨hcm, hcu⟩ := mem_userClientsOf.mp (hcl ▸ List.mem_cons_self c cs)
        obtain ⟨p, hp, hp1, hpm⟩ := hWF.2.2.2.2.2 c hcm u (by rw [hcu]; simp)
        have hli2 : lookupIndex s.userConnections u = some p.2 := by
          apply lookupIndex_of_mem hWF.2.1
          rw [← hp1]
          exact hp
        exact Option.noConfusion (hli2.symm.trans hli)
    have hid : sendToUser s u e = (0, s) := by
      simp only [sendToUser, hli]
    rw [hid, hucl]
    refine ⟨rfl, by simp, ⟨[], by simp, by simp, by simp⟩, ?_, by simp [getStats], fun _ => rfl⟩
    intro c hc _
    exact lookupClient_of_mem hnc hc
  · -- an index entry exists
    have hmem := lookupIndex_eq_some hli
    have hnniil : ids ≠ [] := hWF.2.2.2.1 (u, ids) hmem
    have hndids : ids.Nodup := hWF.2.2.1 (u, ids) hmem
    have hemp : ids.isEmpty = false := by
      rcases ids with _ | _
      · exact absurd rfl hnniil
      · rfl
    have hrun : sendToUser s u e = sendRound s ids e := by
      simp only [sendToUser, hli, hemp]
      rfl
    have hsub : ∀ cid ∈ ids, ∃ c, lookupClient s.clients cid = some c ∧
        c.userId = some u := by
      intro cid hcid
      obtain ⟨c, hc, hcid2, hcu⟩ := hWF.2.2.2.2.1 (u, ids) hmem cid hcid
      refine ⟨c, ?_, hcu⟩
      rw [← hcid2]
      exact lookupClient_of_mem hnc hc
    obtain ⟨sp1, sp2, sp3, sp4, sp5⟩ := sendRound_spec e u ids s hWF hndids hsub
    have hperm := index_perm_userClients hWF hli
    have hidmem : ∀ c ∈ userClientsOf s u, c.id ∈ ids := by
      intro c hc
      exact hperm.mem_iff.mpr (List.mem_map_of_mem (·.id) hc)
    have hcount_pos : ids.countP (fun cid => acceptsAt s cid) =
        (userClientsOf s u).countP (fun c => c.controller.writeOk c.writeCount) := by
      rw [hperm.countP_eq, List.countP_map]
      apply List.countP_congr
      intro c hc
      show (acceptsAt s c.id = true) ↔ _
      rw [acceptsAt_of_mem hnc (mem_userClientsOf.mp hc).1]
    have hcount_neg : ids.countP (fun cid => !acceptsAt s cid) =
        (userClientsOf s u).countP (fun c => !c.controller.writeOk c.writeCount) := by
      rw [hperm.countP_eq, List.countP_map]
      apply List.countP_congr
      intro c hc
      show ((!acceptsAt s c.id) = true) ↔ _
      rw [acceptsAt_of_mem hnc (mem_userClientsOf.mp hc).1]
    rw [hrun]
    refine ⟨?_, ?_, ?_, ?_, ?_, ?_⟩
    · rw [sp1, hcount_pos]
    · intro c hc hfalse
      have hacc : acceptsAt s c.id = false := by
        rw [acceptsAt_of_mem hnc (mem_userClientsOf.mp hc).1]
        exact hfalse
      unfold hasClient
      rw [sp2 c.id (hidmem c hc) hacc]
      rfl
    · refine ⟨(ids.filter (fun cid => acceptsAt s cid)).map (fun cid => (cid, e)),
        sp4, ?_, ?_⟩
      · intro c hc htrue
        have hacc : acceptsAt s c.id = true := by
          rw [acceptsAt_of_mem hnc (mem_userClientsOf.mp hc).1]
          exact htrue
        exact List.mem_map_of_mem _ (List.mem_filter.mpr ⟨hidmem c hc, hacc⟩)
      · intro q hq
        obtain ⟨cid, hcid, rfl⟩ := List.mem_map.mp hq
        obtain ⟨hcid1, hcid2⟩ := List.mem_filter.mp hcid
        obtain ⟨c, hlc, hcu⟩ := hsub cid hcid1
        obtain ⟨hcm, hcidc⟩ := lookupClient_eq_some hlc
        refine ⟨rfl, c, mem_userClientsOf.mpr ⟨hcm, hcu⟩, hcidc, ?_⟩
        rw [← acceptsAt_of_mem hnc hcm, hcidc]
        exact hcid2
    · intro c hc hcu
      have hnotin : c.id ∉ ids := by
        intro hin
        obtain ⟨c', hlc', hcu'⟩ := hsub c.id hin
        have hcc : c' = c := by
          have h2 := lookupClient_of_mem hnc hc
          exact Option.some.inj (hlc'.symm.trans h2)
        rw [hcc] at hcu'
        exact hcu hcu'
      rw [sp3 c.id hnotin]
      exact lookupClient_of_mem hnc hc
    · show (sendRound s ids e).2.clients.length = s.clients.length - _
      rw [sp5, hcount_neg]
    · intro hucl
      obtain ⟨cid, hcid⟩ := List.exists_mem_of_ne_nil ids hnniil
      obtain ⟨c, hlc, hcu⟩ := hsub cid hcid
      obtain ⟨hcm, _⟩ := lookupClient_eq_some hlc
      have : c ∈ userClientsOf s u := mem_userClientsOf.mpr ⟨hcm, hcu⟩
      rw [hucl] at this
      exact absurd this (List.not_mem_nil c)

/-- A registry for the C3 witness: `u1` has an accepting and a throwing
connection, `u2` has one connection. -/
def c3State : ManagerState :=
  applyOps defaultConfig initialState
    [Op.add "a" probeSink (some "u1") none 0,
     Op.add "b" { writeOk := fun n => n = 0, closeOk := true } (some "u1") none 0,
     Op.add "c" probeSink (some "u2") none 0]

/-- Witness for C3 on `c3State`: the second `u1` sink accepts only its very
first write (the `connection` event), so the `sendToUser` round counts one
success and evicts `b`. -/
theorem claim3_sendToUser_witness :
    WF c3State ∧
    ((sendToUser c3State "u1" { type := "t", data := Json.str "d" }).1 =
        (userClientsOf c3State "u1").countP (fun c => c.controller.writeOk c.writeCount) ∧
      (∀ c ∈ userClientsOf c3State "u1", c.controller.writeOk c.writeCount = false →
        hasClient (sendToUser c3State "u1" { type := "t", data := Json.str "d" }).2 c.id =
          false) ∧
      (∃ tail, (sendToUser c3State "u1" { type := "t", data := Json.str "d" }).2.sent =
          c3State.sent ++ tail ∧
        (∀ c ∈ userClientsOf c3State "u1", c.controller.writeOk c.writeCount = true →
          (c.id, ({ type := "t", data := Json.str "d" } : SSEEvent)) ∈ tail) ∧
        (∀ q ∈ tail, q.2 = ({ type := "t", data := Json.str "d" } : SSEEvent) ∧
          ∃ c ∈ userClientsOf c3State "u1", c.id = q.1 ∧
            c.controller.writeOk c.writeCount = true)) ∧
      (∀ c ∈ c3State.clients, c.userId ≠ some "u1" →
        lookupClient (sendToUser c3State "u1"
          { type := "t", data := Json.str "d" }).2.clients c.id = some c) ∧
      ((getStats (sendToUser c3State "u1" { type := "t", data := Json.str "d" }).2).1 =
        (getStats c3State).1 -
          (userClientsOf c3State "u1").countP
            (fun c => !c.controller.writeOk c.writeCount)) ∧
      (userClientsOf c3State "u1" = [] →
        sendToUser c3State "u1" { type := "t", data := Json.str "d" } = (0, c3State))) :=
  ⟨by decide, claim3_sendToUser (by decide) "u1" { type := "t", data := Json.str "d" }⟩

/-! ### The heartbeat reaper tick (claim C5) -/

theorem foldl_remove_lookup_not_mem (dead : List String) :
    ∀ (s : ManagerState) (x : String), x ∉ dead →
      lookupClient (dead.foldl removeClient s).clients x = lookupClient s.clients x := by
  induction dead with
  | nil => intro s x hx; rfl
  | cons d rest ih =>
    intro s x hx
    rw [List.foldl_cons]
    rw [ih _ x (fun h => hx (List.mem_cons_of_mem d h))]
    exact lookupClient_removeClient_ne (fun h => hx (h ▸ List.mem_cons_self d rest))

theorem foldl_remove_lookup_mem (dead : List String) :
    ∀ (s : ManagerState), WF s → ∀ x ∈ dead,
      lookupClient (dead.foldl removeClient s).clients x = none := by
  induction dead with
  | nil => intro s _ x hx; simp at hx
  | cons d rest ih =>
    intro s hWF x hx
    rw [List.foldl_cons]
    rcases List.mem_cons.mp hx with rfl | hx2
    · by_cases hxr : x ∈ rest
      · exact ih _ (WF_removeClient hWF x) x hxr
      · rw [foldl_remove_lookup_not_mem rest _ x hxr]
        exact lookupClient_removeClient_self x hWF.1
    · exact ih _ (WF_removeClient hWF d) x hx2

theorem foldl_remove_sent (dead : List String) :
    ∀ s : ManagerState, (dead.foldl removeClient s).sent = s.sent := by
  induction dead with
  | nil => intro s; rfl
  | cons d rest ih =>
    intro s
    rw [List.foldl_cons, ih, removeClient_sent]

/-- One step of the heartbeat loop: send, and on success refresh `lastPing`. -/
def hbStep (s : ManagerState) (cid : String) (ev : SSEEvent) (now : Nat) : ManagerState :=
  let r := sendToClient s cid ev
  if r.1 then
    match lookupClient r.2.clients cid with
    | some c => { r.2 with clients := setClient r.2.clients cid { c with lastPing := now } }
    | none => r.2
  else r.2

theorem heartbeatLoop_cons (s : ManagerState) (cid : String) (rest : List String)
    (ev : SSEEvent) (now : Nat) :
    heartbeatLoop s (cid :: rest) ev now = heartbeatLoop (hbStep s cid ev now) rest ev now := by
  unfold heartbeatLoop
  rw [List.foldl_cons]
  rfl

theorem hbStep_ok {s : ManagerState} {cid : String} {c : SSEClient}
    (hl : lookupClient s.clients cid = some c)
    (hw : c.controller.writeOk c.writeCount = true) (ev : SSEEvent) (now : Nat) :
    (∀ x, lookupClient (hbStep s cid ev now).clients x =
      if x = cid then some { c with writeCount := c.writeCount + 1, lastPing := now }
      else lookupClient s.clients x) ∧
    (hbStep s cid ev now).sent = s.sent ++ [(cid, ev)] := by
  have hid : ({ c with writeCount := c.writeCount + 1 } : SSEClient).id = cid :=
    (lookupClient_eq_some hl).2
  have h1 := sendToClient_of_lookup_ok hl hw ev
  have h2 : lookupClient (sendToClient s cid ev).2.clients cid =
      some { c with writeCount := c.writeCount + 1 } := by
    rw [h1]
    exact lookupClient_setClient_self hid
  have hfst : (sendToClient s cid ev).1 = true := by rw [h1]
  simp only [hbStep, h2, if_pos hfst]
  constructor
  · intro x
    rw [h1]
    show lookupClient (setClient (setClient s.clients cid _) cid _) x = _
    rw [lookupClient_setClient (by exact hid) x, lookupClient_setClient hid x]
    by_cases hx : x = cid
    · rw [if_pos hx, if_pos hx]
    · rw [if_neg hx, if_neg hx, if_neg hx]
  · rw [h1]

theorem hbStep_fail {s : ManagerState} {cid : String} {c : SSEClient}
    (hnc : (s.clients.map (·.id)).Nodup)
    (hl : lookupClient s.clients cid = some c)
    (hw : c.controller.writeOk c.writeCount = false) (ev : SSEEvent) (now : Nat) :
    (∀ x, lookupClient (hbStep s cid ev now).clients x =
      if x = cid then none else lookupClient s.clients x) ∧
    (hbStep s cid ev now).sent = s.sent := by
  have h1 := sendToClient_of_lookup_fail hl hw ev
  have hfst : (sendToClient s cid ev).1 = false := by rw [h1]
  simp only [hbStep,
    if_neg (show ¬((sendToClient s cid ev).1 = true) from by
      rw [hfst]; exact Bool.false_ne_true)]
  constructor
  · intro x
    rw [h1]
    show lookupClient (removeClient s cid).clients x = _
    by_cases hx : x = cid
    · rw [if_pos hx, hx]
      exact lookupClient_removeClient_self cid hnc
    · rw [if_neg hx]
      exact lookupClient_removeClient_ne hx
  · rw [h1]
    exact removeClient_sent s cid

theorem WF_hbStep {s : ManagerState} (h : WF s) (cid : String) (ev : SSEEvent)
    (now : Nat) : WF (hbStep s cid ev now) :=
  WF_heartbeatStep h cid ev now

/-- Full characterization of the heartbeat-sending loop over distinct
registered ids: an accepting target keeps its record with the write count
bumped and `lastPing` refreshed to `now` and the event is logged for it; a
throwing target is evicted; untargeted ids are untouched; the delivery log
only grows. -/
theorem heartbeatLoop_spec (ev : SSEEvent) (now : Nat) (ids : List String) :
    ∀ (s : ManagerState), WF s → ids.Nodup →
      (∀ cid ∈ ids, ∃ c, lookupClient s.clients cid = some c) →
      (∀ cid ∈ ids, ∀ c, lookupClient s.clients cid = some c →
        (c.controller.writeOk c.writeCount = true →
          lookupClient (heartbeatLoop s ids ev now).clients cid =
            some { c with writeCount := c.writeCount + 1, lastPing := now } ∧
          (cid, ev) ∈ (heartbeatLoop s ids ev now).sent) ∧
        (c.controller.writeOk c.writeCount = false →
          lookupClient (heartbeatLoop s ids ev now).clients cid = none)) ∧
      (∀ x, x ∉ ids →
        lookupClient (heartbeatLoop s ids ev now).clients x = lookupClient s.clients x) ∧
      (∃ tail, (heartbeatLoop s ids ev now).sent = s.sent ++ tail) := by
  induction ids with
  | nil =>
    intro s hWF hnd hsub
    refine ⟨by simp, fun x hx => rfl, ⟨[], by
      show s.sent = s.sent ++ []
      rw [List.append_nil]⟩⟩
  | cons cid rest ih =>
    intro s hWF hnd hsub
    obtain ⟨c, hlc⟩ := hsub cid (List.mem_cons_self cid rest)
    simp only [List.nodup_cons] at hnd
    obtain ⟨hcidrest, hndrest⟩ := hnd
    rw [heartbeatLoop_cons]
    have hWF1 : WF (hbStep s cid ev now) := WF_hbStep hWF cid ev now
    rcases hacc : c.controller.writeOk c.writeCount with _ | _
    · -- the heartbeat write throws: the client is evicted
      obtain ⟨hlook, hsent⟩ := hbStep_fail hWF.1 hlc hacc ev now
      have hsub1 : ∀ x ∈ rest, ∃ c', lookupClient (hbStep s cid ev now).clients x =
          some c' := by
        intro x hx
        obtain ⟨c', hc'⟩ := hsub x (List.mem_cons_of_mem cid hx)
        refine ⟨c', ?_⟩
        rw [hlook x, if_neg (fun hh => hcidrest (by rw [← hh]; exact hx))]
        exact hc'
      obtain ⟨ih1, ih2, ih3⟩ := ih (hbStep s cid ev now) hWF1 hndrest hsub1
      refine ⟨?_, ?_, ?_⟩
      · intro x hx c' hc'
        rcases List.mem_cons.mp hx with rfl | hx2
        · have hcc : c' = c := Option.some.inj (hc'.symm.trans hlc)
          subst hcc
          refine ⟨fun htrue => absurd (hacc.symm.trans htrue) Bool.false_ne_true, fun _ => ?_⟩
          rw [ih2 x hcidrest, hlook x, if_pos rfl]
        · refine ⟨fun htrue => ?_, fun hfalse => ?_⟩
          · have hc'2 : lookupClient (hbStep s cid ev now).clients x = some c' := by
              rw [hlook x, if_neg (fun hh => hcidrest (by rw [← hh]; exact hx2))]
              exact hc'
            exact (ih1 x hx2 c' hc'2).1 htrue
          · have hc'2 : lookupClient (hbStep s cid ev now).clients x = some c' := by
              rw [hlook x, if_neg (fun hh => hcidrest (by rw [← hh]; exact hx2))]
              exact hc'
            exact (ih1 x hx2 c' hc'2).2 hfalse
      · intro x hx
        have hx1 : x ≠ cid := fun hh => hx (hh ▸ List.mem_cons_self cid rest)
        have hx2 : x ∉ rest := fun hh => hx (List.mem_cons_of_mem cid hh)
        rw [ih2 x hx2, hlook x, if_neg hx1]
      · obtain ⟨tail, htail⟩ := ih3
        exact ⟨tail, by rw [htail, hsent]⟩
    · -- the heartbeat write is accepted: lastPing is refreshed
      obtain ⟨hlook, hsent⟩ := hbStep_ok hlc hacc ev now
      have hsub1 : ∀ x ∈ rest, ∃ c', lookupClient (hbStep s cid ev now).clients x =
          some c' := by
        intro x hx
        obtain ⟨c', hc'⟩ := hsub x (List.mem_cons_of_mem cid hx)
        refine ⟨c', ?_⟩
        rw [hlook x, if_neg (fun hh => hcidrest (by rw [← hh]; exact hx))]
        exact hc'
      obtain ⟨ih1, ih2, ih3⟩ := ih (hbStep s cid ev now) hWF1 hndrest hsub1
      refine ⟨?_, ?_, ?_⟩
      · intro x hx c' hc'
        rcases List.mem_cons.mp hx with rfl | hx2
        · have hcc : c' = c := Option.some.inj (hc'.symm.trans hlc)
          subst hcc
          refine ⟨fun _ => ⟨?_, ?_⟩,
            fun hfalse => absurd (hacc.symm.trans hfalse).symm Bool.false_ne_true⟩
          · rw [ih2 x hcidrest, hlook x, if_pos rfl]
          · obtain ⟨tail, htail⟩ := ih3
            rw [htail, hsent]
            exact List.mem_append_left _ (List.mem_append_right _ (List.mem_singleton.mpr rfl))
        · refine ⟨fun htrue => ?_, fun hfalse => ?_⟩
          · have hc'2 : lookupClient (hbStep s cid ev now).clients x = some c' := by
              rw [hlook x, if_neg (fun hh => hcidrest (by rw [← hh]; exact hx2))]
              exact hc'
            exact (ih1 x hx2 c' hc'2).1 htrue
          · have hc'2 : lookupClient (hbStep s cid ev now).clients x = some c' := by
              rw [hlook x, if_neg (fun hh => hcidrest (by rw [← hh]; exact hx2))]
              exact hc'
            exact (ih1 x hx2 c' hc'2).2 hfalse
      · intro x hx
        have hx1 : x ≠ cid := fun hh => hx (hh ▸ List.mem_cons_self cid rest)
        have hx2 : x ∉ rest := fun hh => hx (List.mem_cons_of_mem cid hh)
        rw [ih2 x hx2, hlook x, if_neg hx1]
      · obtain ⟨tail, htail⟩ := ih3
        refine ⟨(cid, ev) :: tail, ?_⟩
        rw [htail, hsent]
        simp

/-- The ids collected by the dead-connection scan of a heartbeat tick. -/
def deadIds (cfg : SSEManagerConfig) (s : ManagerState) (now : Nat) : List String :=
  (s.clients.filter (fun c => decide (cfg.connectionTimeout < now - c.lastPing))).map (·.id)

/-- The registry after the dead-connection removal phase of a tick. -/
def reapState (cfg : SSEManagerConfig) (s : ManagerState) (now : Nat) : ManagerState :=
  (deadIds cfg s now).foldl removeClient s

theorem heartbeatTick_eq (cfg : SSEManagerConfig) (s : ManagerState) (now : Nat) :
    heartbeatTick cfg s now =
      heartbeatLoop (reapState cfg s now) ((reapState cfg s now).clients.map (·.id))
        (heartbeatEvent now) now := rfl

theorem mem_deadIds {cfg : SSEManagerConfig} {s : ManagerState} {now : Nat}
    {c : SSEClient} (hnd : (s.clients.map (·.id)).Nodup) (hc : c ∈ s.clients) :
    c.id ∈ deadIds cfg s now ↔ cfg.connectionTimeout < now - c.lastPing := by
  unfold deadIds
  constructor
  · intro h
    obtain ⟨c2, hc2, hid⟩ := List.mem_map.mp h
    obtain ⟨hc2mem, hp⟩ := List.mem_filter.mp hc2
    have hcc : c2 = c := eq_of_mem_of_id_eq hnd hc2mem hc hid
    subst hcc
    exact of_decide_eq_true hp
  · intro h
    exact List.mem_map.mpr ⟨c, List.mem_filter.mpr ⟨hc, decide_eq_true h⟩, rfl⟩

/-- C5: on a heartbeat tick at snapshot time `now`, every connection whose
`lastPing` is older than `connectionTimeout` (`now - lastPing >
connectionTimeout`) is removed by the reap phase (the `removeClient` fold) and
stays absent after the tick; a `heartbeat` event with data
`\x7btimestamp: now\x7d` is then sent to every remaining connection: each
remaining connection whose sink accepts the heartbeat write ends the tick with
its `lastPing` set to `now` (and the heartbeat logged as delivered to it),
while a remaining connection whose write throws is evicted by the
`sendToClient` failure path, so its `lastPing` is never refreshed. -/
theorem claim5_heartbeatTick (cfg : SSEManagerConfig) (s : ManagerState) (now : Nat)
    (hWF : WF s) :
    ((heartbeatEvent now).type = "heartbeat" ∧
      (heartbeatEvent now).data = Json.obj [("timestamp", Json.num (Int.ofNat now))]) ∧
    (∀ c ∈ s.clients, cfg.connectionTimeout < now - c.lastPing →
      lookupClient (reapState cfg s now).clients c.id = none ∧
      lookupClient (heartbeatTick cfg s now).clients c.id = none) ∧
    (∀ c ∈ s.clients, ¬ cfg.connectionTimeout < now - c.lastPing →
      (c.controller.writeOk c.writeCount = true →
        lookupClient (heartbeatTick cfg s now).clients c.id =
          some { c with writeCount := c.writeCount + 1, lastPing := now } ∧
        (c.id, heartbeatEvent now) ∈ (heartbeatTick cfg s now).sent) ∧
      (c.controller.writeOk c.writeCount = false →
        lookupClient (heartbeatTick cfg s now).clients c.id = none)) := by
  have hWF1 : WF (reapState cfg s now) := WF_foldl_remove _ hWF
  have hpres : ∀ x ∈ (reapState cfg s now).clients.map (·.id),
      ∃ c2, lookupClient (reapState cfg s now).clients x = some c2 := by
    intro x hx
    obtain ⟨c2, hc2, hid⟩ := List.mem_map.mp hx
    exact ⟨c2, by rw [← hid]; exact lookupClient_of_mem hWF1.1 hc2⟩
  obtain ⟨hok, hframe, -⟩ :=
    heartbeatLoop_spec (heartbeatEvent now) now ((reapState cfg s now).clients.map (·.id))
      (reapState cfg s now) hWF1 hWF1.1 hpres
  refine ⟨⟨rfl, rfl⟩, ?_, ?_⟩
  · intro c hc hstale
    have hs1 : lookupClient (reapState cfg s now).clients c.id = none :=
      foldl_remove_lookup_mem _ s hWF c.id ((mem_deadIds hWF.1 hc).mpr hstale)
    refine ⟨hs1, ?_⟩
    have hnotin : c.id ∉ (reapState cfg s now).clients.map (·.id) := by
      intro hmem
      obtain ⟨c2, hc2⟩ := hpres _ hmem
      rw [hs1] at hc2
      exact Option.noConfusion hc2
    rw [heartbeatTick_eq, hframe c.id hnotin]
    exact hs1
  · intro c hc hlive
    have hid_not : c.id ∉ deadIds cfg s now :=
      fun h => hlive ((mem_deadIds hWF.1 hc).mp h)
    have hs1 : lookupClient (reapState cfg s now).clients c.id = some c := by
      show lookupClient ((deadIds cfg s now).foldl removeClient s).clients c.id = some c
      rw [foldl_remove_lookup_not_mem _ s c.id hid_not]
      exact lookupClient_of_mem hWF.1 hc
    have hin : c.id ∈ (reapState cfg s now).clients.map (·.id) :=
      List.mem_map.mpr ⟨c, (lookupClient_eq_some hs1).1, rfl⟩
    have h := hok c.id hin c hs1
    rw [heartbeatTick_eq]
    exact h

/-- The witness configuration for C5: a 100ms connection timeout. -/
def c5Config : SSEManagerConfig :=
  { heartbeatInterval := 50, connectionTimeout := 100, maxConnections := 1000 }

/-- The witness registry for C5: `a` joined at time 0 (stale by the tick at
150), `b` at 100 with an always-accepting sink, `c` at 120 with a sink that
only accepts its very first write (the `connection` event), so its heartbeat
write throws. -/
def c5State : ManagerState :=
  applyOps c5Config initialState
    [Op.add "a" probeSink (some "u1") none 0,
     Op.add "b" probeSink (some "u1") none 100,
     Op.add "c" { writeOk := fun n => n = 0, closeOk := true } (some "u2") none 120]

/-- Witness for C5 on `c5State` at tick time 150: `a` is reaped, `b` is
refreshed, `c` is evicted by its failing heartbeat write. -/
theorem claim5_heartbeatTick_witness :
    WF c5State ∧
    (((heartbeatEvent 150).type = "heartbeat" ∧
      (heartbeatEvent 150).data = Json.obj [("timestamp", Json.num (Int.ofNat 150))]) ∧
    (∀ c ∈ c5State.clients, c5Config.connectionTimeout < 150 - c.lastPing →
      lookupClient (reapState c5Config c5State 150).clients c.id = none ∧
      lookupClient (heartbeatTick c5Config c5State 150).clients c.id = none) ∧
    (∀ c ∈ c5State.clients, ¬ c5Config.connectionTimeout < 150 - c.lastPing →
      (c.controller.writeOk c.writeCount = true →
        lookupClient (heartbeatTick c5Config c5State 150).clients c.id =
          some { c with writeCount := c.writeCount + 1, lastPing := 150 } ∧
        (c.id, heartbeatEvent 150) ∈ (heartbeatTick c5Config c5State 150).sent) ∧
      (c.controller.writeOk c.writeCount = false →
        lookupClient (heartbeatTick c5Config c5State 150).clients c.id = none))) :=
  ⟨by decide, claim5_heartbeatTick c5Config c5State 150 (by decide)⟩

/-- Witness for C7 (amended) at the concrete `addClient` of `c7State`. -/
theorem claim7_connection_event_witness :
    addClient defaultConfig initialState "c1" probeSink (some "u1") none 5 =
      Except.ok c7State ∧
    probeSink.writeOk 0 = true ∧
    c7State.sent = initialState.sent ++ [("c1", connectionEvent "c1" 5)] ∧
    lookupField (connectionEvent "c1" 5).data "clientId" = some (Json.str "c1") :=
  ⟨rfl, rfl,
   (@claim7_connection_event defaultConfig initialState "c1" probeSink (some "u1")
     none 5 c7State rfl rfl).1,
   (@claim7_connection_event defaultConfig initialState "c1" probeSink (some "u1")
     none 5 c7State rfl rfl).2.2.2.1⟩

end SSE
